import Mathlib

/-!
Verification of the free/busy slot computation of a calendar tool server
(`src/calendar_mcp/calendar.py`), against its natural-language design
specification.

The embedding represents an aware Python `datetime` by its wall-clock
reading, measured in whole seconds since an arbitrary epoch midnight,
together with its UTC offset in seconds.  Comparisons between aware
datetimes compare absolute instants (wall minus offset), `replace` and
`date()` act on the wall clock, and `max`/`min` keep Python tie-breaking
(the first argument is returned when the two compare equal), because the
offset carried by the chosen representative is observable in the output.
Sub-second (microsecond) resolution is not modelled.
-/

namespace CalendarMCP

/-- An aware `datetime`: wall-clock seconds since an (arbitrary) epoch
midnight, plus the `tzinfo` UTC offset in seconds. -/
structure DT where
  wall : Nat
  off : Int
  deriving DecidableEq, Repr

/-- The absolute instant denoted by an aware datetime (seconds since the
epoch, in UTC). -/
def dtAbs (d : DT) : Int := (d.wall : Int) - d.off

/-- `a < b` on aware Python datetimes compares absolute instants. -/
def dtLt (a b : DT) : Prop := dtAbs a < dtAbs b

/-- `a <= b` on aware Python datetimes compares absolute instants. -/
def dtLe (a b : DT) : Prop := dtAbs a ≤ dtAbs b

instance (a b : DT) : Decidable (dtLt a b) := by
  unfold dtLt
  infer_instance

instance (a b : DT) : Decidable (dtLe a b) := by
  unfold dtLe
  infer_instance

/-- Python `max(a, b)`: returns `b` exactly when `b > a`, otherwise the
first argument `a` (ties keep `a`). -/
def pyMax (a b : DT) : DT := if dtLt a b then b else a

/-- Python `min(a, b)`: returns `b` exactly when `b < a`, otherwise the
first argument `a` (ties keep `a`). -/
def pyMin (a b : DT) : DT := if dtLt b a then b else a

/-- `(a - b).total_seconds()` for aware datetimes. -/
def dtSub (a b : DT) : Int := dtAbs a - dtAbs b

/-- `d.replace(hour=h, minute=0, second=0, microsecond=0)`: same calendar
day on the wall clock, time of day `h:00:00`, same `tzinfo`.  Faithful
for `h` in `0..23`; Python raises `ValueError` for larger hour values, so
every theorem that quantifies over working-hour parameters carries the
`0..23` bound. -/
def replaceHour (d : DT) (h : Nat) : DT :=
  ⟨d.wall / 86400 * 86400 + h * 3600, d.off⟩

/-- `datetime(next_day.year, next_day.month, next_day.day, h, 0, 0,
tzinfo=tz)` where `next_day = d.date() + timedelta(days=1)`.  Faithful
for `h` in `0..23`; Python raises `ValueError` for larger hour values, so
every theorem that quantifies over working-hour parameters carries the
`0..23` bound. -/
def nextDayAt (d : DT) (h : Nat) (tz : Int) : DT :=
  ⟨(d.wall / 86400 + 1) * 86400 + h * 3600, tz⟩

/-- One fuel unit per iteration of the `while current < gap_end` loop of
`clip_to_working_hours` (calendar.py lines 226-245).  `gsOff` is
`gap_start.tzinfo`, used for the next-day cursor.  Returns `none` when the
fuel runs out with the loop guard still true; the emitted `(slot_start,
slot_end)` pairs are listed in yield order. -/
def clipGo (whs whe : Nat) (minDur : Int) (gsOff : Int) (gapEnd : DT) :
    Nat → DT → Option (List (DT × DT))
  | 0, current => if dtLt current gapEnd then none else some []
  | fuel + 1, current =>
    if dtLt current gapEnd then
      let workStart := replaceHour current whs
      let workEnd := replaceHour current whe
      let slotStart := pyMax current workStart
      let slotEnd := pyMin gapEnd workEnd
      match clipGo whs whe minDur gsOff gapEnd fuel (nextDayAt current whs gsOff) with
      | none => none
      | some rest =>
        if dtLt slotStart slotEnd ∧ dtSub slotEnd slotStart ≥ minDur * 60 then
          some ((slotStart, slotEnd) :: rest)
        else
          some rest
    else some []

/-- Enough fuel for `clipGo` starting at `gs`: the cursor wall clock
strictly increases every iteration, and the guard bounds it by
`dtAbs ge + gs.off`. -/
def clipFuelBound (gs ge : DT) : Nat :=
  (dtAbs ge + gs.off - (gs.wall : Int)).toNat + 2

/-- `clip_to_working_hours(gap_start, gap_end)` (calendar.py lines
226-245), as the list of all yielded slots.  The fuel is sufficient
(proved below), so the `getD` default is never taken. -/
def clip_to_working_hours (whs whe : Nat) (minDur : Int) (gs ge : DT) :
    List (DT × DT) :=
  (clipGo whs whe minDur gs.off ge (clipFuelBound gs ge) gs).getD []

/-- The sort key relation of `busy_ranges.sort(key=lambda x: x[0])`:
compare busy intervals by start instant. -/
def startLe (a b : DT × DT) : Prop := dtAbs a.1 ≤ dtAbs b.1

instance : DecidableRel startLe := by
  unfold startLe
  infer_instance

instance : IsTotal (DT × DT) startLe :=
  ⟨fun a b => le_total (dtAbs a.1) (dtAbs b.1)⟩

instance : IsTrans (DT × DT) startLe :=
  ⟨fun _ _ _ hab hbc => le_trans hab hbc⟩

/-- `busy_ranges.sort(key=lambda x: x[0])`: Python list sort is stable, so
it coincides extensionally with stable insertion sort by the key. -/
def busyRangesSort (l : List (DT × DT)) : List (DT × DT) :=
  List.insertionSort startLe l

/-- The free-slot sweep of `get_free_slots` (calendar.py lines 247-260):
walk the sorted busy list with a cursor, clip each gap to working hours,
and clip the trailing gap after the loop.  A `break` leaves the cursor at
or past `endDt`, in which case the trailing `if current < end_dt` emits
nothing, so returning the accumulated slots directly is faithful. -/
def sweepBusy (whs whe : Nat) (minDur : Int) (endDt : DT) :
    DT → List (DT × DT) → List (DT × DT)
  | current, [] =>
    if dtLt current endDt then clip_to_working_hours whs whe minDur current endDt
    else []
  | current, (bs, be) :: rest =>
    if dtLe be current then sweepBusy whs whe minDur endDt current rest
    else
      let gaps :=
        if dtLt current bs then
          clip_to_working_hours whs whe minDur current (pyMin bs endDt)
        else []
      let current2 := pyMax current be
      if dtLe endDt current2 then gaps
      else gaps ++ sweepBusy whs whe minDur endDt current2 rest

/-- The pure slot computation of `get_free_slots` (lines 217-260): sort
the busy ranges by start, then sweep. -/
def get_free_slots_core (whs whe : Nat) (minDur : Int) (startDt endDt : DT)
    (busy : List (DT × DT)) : List (DT × DT) :=
  sweepBusy whs whe minDur endDt startDt (busyRangesSort busy)

/-- Total duration, in seconds, of a list of slots. -/
def totalDuration (slots : List (DT × DT)) : Int :=
  (slots.map fun s => dtSub s.2 s.1).sum

/-- Two closed intervals of instants share a segment of positive length. -/
def overlaps (x y : DT × DT) : Prop :=
  max (dtAbs x.1) (dtAbs y.1) < min (dtAbs x.2) (dtAbs y.2)

instance (x y : DT × DT) : Decidable (overlaps x y) := by
  unfold overlaps
  infer_instance

/-- The single union interval of two overlapping or adjacent busy
intervals (earliest start, latest end, with Python min/max picking the
representative datetimes). -/
def unionInterval (i j : DT × DT) : DT × DT :=
  (pyMin i.1 j.1, pyMax i.2 j.2)

/-- Spec-side quantity: the length, in seconds, of the intersection of
`[gs, ge]` with the working-hours window of the `k`-th calendar day
counted from the day of `gs` (days reckoned on the wall clock of `gs`). -/
def windowContribution (whs whe : Nat) (gs ge : DT) (k : Nat) : Int :=
  max 0 (min (dtAbs ge) (((gs.wall / 86400 + k : Nat) : Int) * 86400 + (whe : Int) * 3600 - gs.off)
    - max (dtAbs gs) (((gs.wall / 86400 + k : Nat) : Int) * 86400 + (whs : Int) * 3600 - gs.off))

/-- Number of calendar days (in the reckoning of `gs`) that can meet
`[gs, ge]`; summing day contributions over this range is exhaustive. -/
def daysSpan (gs ge : DT) : Nat :=
  (dtAbs ge + gs.off - ((gs.wall / 86400 : Nat) : Int) * 86400).toNat / 86400 + 1

/-- Spec-side quantity of the no-busy coverage property: the duration of
`[gs, ge]` intersected with the daily working-hours windows. -/
def workingHoursOverlapTotal (whs whe : Nat) (gs ge : DT) : Int :=
  ∑ k ∈ Finset.range (daysSpan gs ge), windowContribution whs whe gs ge k

/-- Like `workingHoursOverlapTotal` but discarding the days whose
intersection is shorter than the minimum duration (in seconds,
`minDur * 60`), matching the per-day duration check of the code. -/
def clippedWorkingHoursTotal (whs whe : Nat) (minDur : Int) (gs ge : DT) : Int :=
  ∑ k ∈ Finset.range (daysSpan gs ge),
    (if windowContribution whs whe gs ge k ≥ minDur * 60 then
      windowContribution whs whe gs ge k else 0)

/-- The result of `datetime.fromisoformat` on a timestamp text: wall-clock
seconds plus the explicit offset, `tz = none` when the text is naive. -/
structure ParsedDT where
  wall : Nat
  tz : Option Int
  deriving DecidableEq, Repr

/-- `_parse_iso8601` (calendar.py lines 30-35).  The text argument is
modelled by its parse outcome: `none` stands for a string that
`datetime.fromisoformat` rejects (raising `ValueError`, the `error`
branch), `some p` for a string parsing to `p`; the trailing `Z` rewrite
is covered by `p.tz = some 0`. -/
def parse_iso8601 : Option ParsedDT → Except Unit ParsedDT
  | none => Except.error ()
  | some p => Except.ok p

/-- `_get_user_timezone` (calendar.py lines 21-27): read the account
timezone setting from the provider; any failure (`none`) falls back to
`"UTC"`.  Timezones are modelled by their UTC offset, `0` for UTC. -/
def get_user_timezone (setting : Option Int) : Int := setting.getD 0

/-- `get_free_slots` lines 189-190: a naive `start_date` is assigned the
local system offset `datetime.now().astimezone().tzinfo`. -/
def resolvedStart (localOff : Int) (p : ParsedDT) : DT := ⟨p.wall, p.tz.getD localOff⟩

/-- `get_free_slots` lines 191-192: a naive `end_date` is assigned the
offset of the (already resolved) start bound. -/
def resolvedEnd (startDt : DT) (p : ParsedDT) : DT := ⟨p.wall, p.tz.getD startDt.off⟩

/-- Outcome of the provider free/busy query (lines 199-215): either a
busy list whose timestamp texts are each modelled by their parse
outcome, or an HTTP-style failure, or another exception.  A busy
timestamp is `none` when `datetime.fromisoformat` rejects its text, and
`some dt` when it parses to the aware datetime `dt`.  The provider
returns RFC3339 texts carrying offsets; a naive-but-parseable busy
timestamp is outside the modelled domain, because whether it raises
`TypeError` depends on whether the sort or the sweep actually compares
it (an entry skipped via `be <= current` or left after `break` is never
compared). -/
inductive QueryOutcome where
  | ok (busy : List (Option DT × Option DT))
  | httpQuota
  | httpServer
  | httpOther
  | exn

/-- The observable outcome of `get_free_slots`: the formatted slot list,
the no-slot message, one of the typed error strings, or an unhandled
exception escaping the function (`raised`). -/
inductive FreeSlotsOutcome where
  | slots (l : List (DT × DT))
  | noSlots
  | authExpired
  | quotaExceeded
  | networkFailure
  | unexpectedFailure
  | raised
  deriving DecidableEq

/-- A provider busy entry that flows through the parsing loop of lines
218-222 without raising: both timestamp texts parse.  The loop parses
every entry before the sort and the sweep run, so one malformed
timestamp anywhere in the list raises `ValueError` there, outside every
`try` block. -/
def busyEntryOk (b : Option DT × Option DT) : Bool :=
  b.1.isSome && b.2.isSome

/-- The parsed busy ranges of lines 218-222, keeping the entries whose
two timestamps parse. -/
def parsedBusy (l : List (Option DT × Option DT)) : List (DT × DT) :=
  l.filterMap fun b =>
    match b.1, b.2 with
    | some s, some e => some (s, e)
    | _, _ => none

/-- `get_free_slots` (calendar.py lines 175-267) end to end.  `authOk`
models whether `get_credentials` finds a token file; `tzSetting` is the
provider timezone setting read by `_get_user_timezone` (the code stores
it in `tz` and never uses it afterwards); `localOff` is the local system
offset; `startText`/`endText` are the two bound texts (by parse
outcome); `query` is the free/busy provider call outcome. -/
def get_free_slots (authOk : Bool) (tzSetting : Option Int) (localOff : Int)
    (startText endText : Option ParsedDT) (query : QueryOutcome)
    (minDur : Int) (whs whe : Nat) : FreeSlotsOutcome :=
  if authOk then
    match startText, endText with
    | none, _ => FreeSlotsOutcome.unexpectedFailure
    | some _, none => FreeSlotsOutcome.unexpectedFailure
    | some sp, some ep =>
      let uTz := get_user_timezone tzSetting
      let startDt := resolvedStart localOff sp
      let endDt := resolvedEnd startDt ep
      match uTz, query with
      | _, QueryOutcome.httpQuota => FreeSlotsOutcome.quotaExceeded
      | _, QueryOutcome.httpServer => FreeSlotsOutcome.networkFailure
      | _, QueryOutcome.httpOther => FreeSlotsOutcome.unexpectedFailure
      | _, QueryOutcome.exn => FreeSlotsOutcome.unexpectedFailure
      | _, QueryOutcome.ok busyTexts =>
        if busyTexts.all busyEntryOk then
          let res := get_free_slots_core whs whe minDur startDt endDt (parsedBusy busyTexts)
          if res.isEmpty then FreeSlotsOutcome.noSlots else FreeSlotsOutcome.slots res
        else FreeSlotsOutcome.raised
  else FreeSlotsOutcome.authExpired

/-- Outcome of the provider `events().insert(...)` call. -/
inductive InsertOutcome where
  | ok
  | httpQuota
  | httpServer
  | httpOther
  | exn

/-- The observable outcome of `create_event`. -/
inductive CreateOutcome where
  | created
  | authExpired
  | quotaExceeded
  | networkFailure
  | unexpectedFailure
  | eventInPast
  deriving DecidableEq

/-- `create_event` (calendar.py lines 51-89), restricted to the control
flow up to and including the insert call: returns whether an insert
request was sent to the provider, and the outcome.  `now` models
`_get_tz_aware_now()` (a parameter of the embedding); a naive start time
is assigned the offset of `now` (line 64). -/
def create_event (authOk : Bool) (startText : Option ParsedDT) (now : DT)
    (insert : InsertOutcome) : Bool × CreateOutcome :=
  if authOk then
    match startText with
    | none => (false, CreateOutcome.unexpectedFailure)
    | some sp =>
      let startDt : DT := ⟨sp.wall, sp.tz.getD now.off⟩
      if dtLt startDt now then (false, CreateOutcome.eventInPast)
      else
        match insert with
        | InsertOutcome.ok => (true, CreateOutcome.created)
        | InsertOutcome.httpQuota => (true, CreateOutcome.quotaExceeded)
        | InsertOutcome.httpServer => (true, CreateOutcome.networkFailure)
        | InsertOutcome.httpOther => (true, CreateOutcome.unexpectedFailure)
        | InsertOutcome.exn => (true, CreateOutcome.unexpectedFailure)
  else (false, CreateOutcome.authExpired)

/-! ## Basic lemmas about the datetime model -/

theorem dtAbs_mk (w : Nat) (o : Int) : dtAbs ⟨w, o⟩ = (w : Int) - o := rfl

theorem dtLt_iff {a b : DT} : dtLt a b ↔ dtAbs a < dtAbs b := Iff.rfl

theorem dtLe_iff {a b : DT} : dtLe a b ↔ dtAbs a ≤ dtAbs b := Iff.rfl

theorem dtAbs_pyMax (a b : DT) : dtAbs (pyMax a b) = max (dtAbs a) (dtAbs b) := by
  unfold pyMax
  split_ifs with h
  · exact (max_eq_right (le_of_lt h)).symm
  · exact (max_eq_left (not_lt.mp h)).symm

theorem dtAbs_pyMin (a b : DT) : dtAbs (pyMin a b) = min (dtAbs a) (dtAbs b) := by
  unfold pyMin
  split_ifs with h
  · exact (min_eq_right (le_of_lt h)).symm
  · exact (min_eq_left (not_lt.mp h)).symm

theorem pyMax_cases (a b : DT) : pyMax a b = a ∨ pyMax a b = b := by
  unfold pyMax
  split_ifs
  · exact Or.inr rfl
  · exact Or.inl rfl

theorem pyMin_cases (a b : DT) : pyMin a b = a ∨ pyMin a b = b := by
  unfold pyMin
  split_ifs
  · exact Or.inr rfl
  · exact Or.inl rfl

theorem dtAbs_nextDayAt (d : DT) (h : Nat) (tz : Int) :
    dtAbs (nextDayAt d h tz) = ((d.wall / 86400 + 1 : Nat) : Int) * 86400 + (h : Int) * 3600 - tz := by
  show ((((d.wall / 86400 + 1) * 86400 + h * 3600 : Nat)) : Int) - tz = _
  push_cast
  ring

theorem nextDayAt_wall_gt (d : DT) (h : Nat) (tz : Int) :
    d.wall < (nextDayAt d h tz).wall := by
  show d.wall < (d.wall / 86400 + 1) * 86400 + h * 3600
  have h1 := Nat.div_add_mod d.wall 86400
  have h2 : d.wall % 86400 < 86400 := Nat.mod_lt _ (by omega)
  omega

theorem clipGo_succ_def (whs whe : Nat) (minDur gsOff : Int) (ge : DT)
    (fuel : Nat) (cur : DT) :
    clipGo whs whe minDur gsOff ge (fuel + 1) cur =
      if dtLt cur ge then
        match clipGo whs whe minDur gsOff ge fuel (nextDayAt cur whs gsOff) with
        | none => none
        | some rest =>
          if dtLt (pyMax cur (replaceHour cur whs)) (pyMin ge (replaceHour cur whe)) ∧
              dtSub (pyMin ge (replaceHour cur whe)) (pyMax cur (replaceHour cur whs)) ≥
                minDur * 60 then
            some ((pyMax cur (replaceHour cur whs), pyMin ge (replaceHour cur whe)) :: rest)
          else some rest
      else some [] := rfl

/-! ## Fuel lemmas for the working-hours clipping loop -/

theorem clipGo_of_not_lt {whs whe : Nat} {minDur gsOff : Int} {ge : DT}
    (fuel : Nat) (cur : DT) (h : ¬ dtLt cur ge) :
    clipGo whs whe minDur gsOff ge fuel cur = some [] := by
  cases fuel <;> simp [clipGo, h]

theorem clipGo_isSome (whs whe : Nat) (minDur gsOff : Int) (ge : DT) :
    ∀ (fuel : Nat) (cur : DT), cur.off = gsOff →
      dtAbs ge + gsOff - (cur.wall : Int) < (fuel : Int) →
      ∃ res, clipGo whs whe minDur gsOff ge fuel cur = some res := by
  intro fuel
  induction fuel with
  | zero =>
    intro cur hoff hlt
    by_cases hg : dtLt cur ge
    · rw [dtLt_iff] at hg
      unfold dtAbs at hg hlt
      rw [hoff] at hg
      omega
    · exact ⟨[], clipGo_of_not_lt 0 cur hg⟩
  | succ n ih =>
    intro cur hoff hlt
    by_cases hg : dtLt cur ge
    · have hwall : cur.wall < (nextDayAt cur whs gsOff).wall := nextDayAt_wall_gt cur whs gsOff
      have hoff2 : (nextDayAt cur whs gsOff).off = gsOff := rfl
      have hlt2 : dtAbs ge + gsOff - ((nextDayAt cur whs gsOff).wall : Int) < (n : Int) := by
        push_cast at hlt ⊢
        omega
      obtain ⟨rest, hrest⟩ := ih (nextDayAt cur whs gsOff) hoff2 hlt2
      rw [clipGo_succ_def, if_pos hg, hrest]
      split_ifs <;> exact ⟨_, rfl⟩
    · exact ⟨[], clipGo_of_not_lt (n + 1) cur hg⟩

theorem clipGo_fuel_succ {whs whe : Nat} {minDur gsOff : Int} {ge : DT} :
    ∀ (fuel : Nat) (cur : DT) (res : List (DT × DT)),
      clipGo whs whe minDur gsOff ge fuel cur = some res →
      clipGo whs whe minDur gsOff ge (fuel + 1) cur = some res := by
  intro fuel
  induction fuel with
  | zero =>
    intro cur res h
    by_cases hg : dtLt cur ge
    · simp [clipGo, hg] at h
    · rw [clipGo_of_not_lt 0 cur hg] at h
      rw [clipGo_of_not_lt 1 cur hg]
      exact h
  | succ n ih =>
    intro cur res h
    by_cases hg : dtLt cur ge
    · rw [clipGo_succ_def, if_pos hg] at h
      rw [clipGo_succ_def, if_pos hg]
      cases hrec : clipGo whs whe minDur gsOff ge n (nextDayAt cur whs gsOff) with
      | none => rw [hrec] at h; simp at h
      | some rest =>
        rw [hrec] at h
        rw [ih _ rest hrec]
        exact h
    · rw [clipGo_of_not_lt (n + 1) cur hg] at h
      rw [clipGo_of_not_lt (n + 2) cur hg]
      exact h

theorem clipGo_fuel_le {whs whe : Nat} {minDur gsOff : Int} {ge : DT}
    {fuel fuel2 : Nat} (hle : fuel ≤ fuel2) (cur : DT) (res : List (DT × DT))
    (h : clipGo whs whe minDur gsOff ge fuel cur = some res) :
    clipGo whs whe minDur gsOff ge fuel2 cur = some res := by
  induction fuel2 with
  | zero =>
    have : fuel = 0 := Nat.le_zero.mp hle
    subst this
    exact h
  | succ n ih =>
    rcases Nat.le_succ_iff.mp hle with h1 | h1
    · exact clipGo_fuel_succ n cur res (ih h1)
    · subst h1
      exact h

theorem clip_fuelBound_lt (gs ge : DT) :
    dtAbs ge + gs.off - (gs.wall : Int) < ((clipFuelBound gs ge : Nat) : Int) := by
  unfold clipFuelBound
  have h1 : dtAbs ge + gs.off - (gs.wall : Int) ≤
      ((dtAbs ge + gs.off - (gs.wall : Int)).toNat : Int) := Int.self_le_toNat _
  push_cast
  omega

/-- Any successful run of the fueled loop computes `clip_to_working_hours`. -/
theorem clipGo_eq_clip {whs whe : Nat} {minDur : Int} {gs ge : DT}
    {fuel : Nat} {res : List (DT × DT)}
    (h : clipGo whs whe minDur gs.off ge fuel gs = some res) :
    clip_to_working_hours whs whe minDur gs ge = res := by
  obtain ⟨res2, hres2⟩ := clipGo_isSome whs whe minDur gs.off ge (clipFuelBound gs ge) gs rfl
    (clip_fuelBound_lt gs ge)
  have h1 := clipGo_fuel_le (Nat.le_max_left fuel (clipFuelBound gs ge)) gs res h
  have h2 := clipGo_fuel_le (Nat.le_max_right fuel (clipFuelBound gs ge)) gs res2 hres2
  rw [h1] at h2
  cases h2
  unfold clip_to_working_hours
  rw [hres2]
  rfl

/-- The canonical successful run: `clip_to_working_hours` is what the loop
returns at the canonical fuel bound, and the bound is sufficient. -/
theorem clipGo_complete (whs whe : Nat) (minDur : Int) (gs ge : DT) :
    clipGo whs whe minDur gs.off ge (clipFuelBound gs ge) gs =
      some (clip_to_working_hours whs whe minDur gs ge) := by
  obtain ⟨res, hres⟩ := clipGo_isSome whs whe minDur gs.off ge (clipFuelBound gs ge) gs rfl
    (clip_fuelBound_lt gs ge)
  rw [hres, clipGo_eq_clip hres]

theorem clip_of_le {whs whe : Nat} {minDur : Int} {gs ge : DT} (h : dtLe ge gs) :
    clip_to_working_hours whs whe minDur gs ge = [] := by
  have hng : ¬ dtLt gs ge := by
    rw [dtLt_iff, not_lt]
    exact h
  exact clipGo_eq_clip (clipGo_of_not_lt 1 gs hng)

/-! ## Bounds and ordering of the clipped slots -/

theorem dtAbs_replaceHour (d : DT) (h : Nat) :
    dtAbs (replaceHour d h) = ((d.wall / 86400 * 86400 + h * 3600 : Nat) : Int) - d.off := rfl

theorem clipGo_slots_bounds {whs whe : Nat} {minDur gsOff : Int} {ge : DT} :
    ∀ (fuel : Nat) (cur : DT) (res : List (DT × DT)), cur.off = gsOff →
      clipGo whs whe minDur gsOff ge fuel cur = some res →
      ∀ s ∈ res, dtAbs cur ≤ dtAbs s.1 ∧ dtLt s.1 s.2 ∧ dtAbs s.2 ≤ dtAbs ge := by
  intro fuel
  induction fuel with
  | zero =>
    intro cur res hoff h s hs
    by_cases hg : dtLt cur ge
    · simp [clipGo, hg] at h
    · rw [clipGo_of_not_lt 0 cur hg] at h
      cases h
      simp at hs
  | succ n ih =>
    intro cur res hoff h s hs
    by_cases hg : dtLt cur ge
    · rw [clipGo_succ_def, if_pos hg] at h
      cases hrec : clipGo whs whe minDur gsOff ge n (nextDayAt cur whs gsOff) with
      | none => rw [hrec] at h; simp at h
      | some rest =>
        rw [hrec] at h
        have hnext : dtAbs cur ≤ dtAbs (nextDayAt cur whs gsOff) := by
          have hwall := nextDayAt_wall_gt cur whs gsOff
          have hoff2 : (nextDayAt cur whs gsOff).off = gsOff := rfl
          unfold dtAbs
          rw [hoff, hoff2]
          omega
        have hrest : ∀ s ∈ rest, dtAbs cur ≤ dtAbs s.1 ∧ dtLt s.1 s.2 ∧ dtAbs s.2 ≤ dtAbs ge := by
          intro t ht
          obtain ⟨h1, h2, h3⟩ := ih (nextDayAt cur whs gsOff) rest rfl hrec t ht
          exact ⟨le_trans hnext h1, h2, h3⟩
        split_ifs at h with hcond
        · rw [Option.some.injEq] at h
          rw [← h, List.mem_cons] at hs
          rcases hs with hs | hs
          · subst hs
            refine ⟨?_, hcond.1, ?_⟩
            · rw [dtAbs_pyMax]
              exact le_max_left _ _
            · rw [dtAbs_pyMin]
              exact min_le_left _ _
          · exact hrest s hs
        · rw [Option.some.injEq] at h
          rw [← h] at hs
          exact hrest s hs
    · rw [clipGo_of_not_lt (n + 1) cur hg] at h
      cases h
      simp at hs

theorem clipGo_pairwise {whs whe : Nat} {minDur gsOff : Int} {ge : DT} (hwhe : whe ≤ 23) :
    ∀ (fuel : Nat) (cur : DT) (res : List (DT × DT)), cur.off = gsOff →
      clipGo whs whe minDur gsOff ge fuel cur = some res →
      List.Pairwise (fun x y => dtAbs x.2 ≤ dtAbs y.1) res := by
  intro fuel
  induction fuel with
  | zero =>
    intro cur res hoff h
    by_cases hg : dtLt cur ge
    · simp [clipGo, hg] at h
    · rw [clipGo_of_not_lt 0 cur hg] at h
      cases h
      exact List.Pairwise.nil
  | succ n ih =>
    intro cur res hoff h
    by_cases hg : dtLt cur ge
    · rw [clipGo_succ_def, if_pos hg] at h
      cases hrec : clipGo whs whe minDur gsOff ge n (nextDayAt cur whs gsOff) with
      | none => rw [hrec] at h; simp at h
      | some rest =>
        rw [hrec] at h
        have hrestpw := ih (nextDayAt cur whs gsOff) rest rfl hrec
        split_ifs at h with hcond
        · cases h
          refine List.Pairwise.cons ?_ hrestpw
          intro y hy
          have hy1 := (clipGo_slots_bounds n (nextDayAt cur whs gsOff) rest rfl hrec y hy).1
          have hse : dtAbs (pyMin ge (replaceHour cur whe)) ≤
              dtAbs (nextDayAt cur whs gsOff) := by
            rw [dtAbs_pyMin, dtAbs_nextDayAt, dtAbs_replaceHour]
            have h1 : (min (dtAbs ge)
                (((cur.wall / 86400 * 86400 + whe * 3600 : Nat) : Int) - cur.off)) ≤
                ((cur.wall / 86400 * 86400 + whe * 3600 : Nat) : Int) - cur.off :=
              min_le_right _ _
            have h2 : ((cur.wall / 86400 * 86400 + whe * 3600 : Nat) : Int) - cur.off ≤
                ((cur.wall / 86400 + 1 : Nat) : Int) * 86400 + (whs : Int) * 3600 - gsOff := by
              rw [hoff]
              push_cast
              have : (whe : Int) * 3600 ≤ 23 * 3600 := by
                have : (whe : Int) ≤ 23 := by exact_mod_cast hwhe
                nlinarith
              nlinarith
            exact le_trans h1 h2
          exact le_trans hse hy1
        · cases h
          exact hrestpw
    · rw [clipGo_of_not_lt (n + 1) cur hg] at h
      cases h
      exact List.Pairwise.nil

theorem clip_slots_bounds {whs whe : Nat} {minDur : Int} {gs ge : DT} :
    ∀ s ∈ clip_to_working_hours whs whe minDur gs ge,
      dtAbs gs ≤ dtAbs s.1 ∧ dtLt s.1 s.2 ∧ dtAbs s.2 ≤ dtAbs ge :=
  clipGo_slots_bounds (clipFuelBound gs ge) gs _ rfl (clipGo_complete whs whe minDur gs ge)

theorem clip_pairwise {whs whe : Nat} {minDur : Int} {gs ge : DT} (hwhe : whe ≤ 23) :
    List.Pairwise (fun x y => dtAbs x.2 ≤ dtAbs y.1)
      (clip_to_working_hours whs whe minDur gs ge) :=
  clipGo_pairwise hwhe (clipFuelBound gs ge) gs _ rfl (clipGo_complete whs whe minDur gs ge)

/-! ## Sweep lemmas -/

theorem sweepBusy_nil (whs whe : Nat) (minDur : Int) (endDt cur : DT) :
    sweepBusy whs whe minDur endDt cur [] =
      if dtLt cur endDt then clip_to_working_hours whs whe minDur cur endDt else [] := rfl

theorem sweepBusy_cons (whs whe : Nat) (minDur : Int) (endDt cur bs be : DT)
    (rest : List (DT × DT)) :
    sweepBusy whs whe minDur endDt cur ((bs, be) :: rest) =
      if dtLe be cur then sweepBusy whs whe minDur endDt cur rest
      else if dtLe endDt (pyMax cur be) then
        (if dtLt cur bs then clip_to_working_hours whs whe minDur cur (pyMin bs endDt) else [])
      else
        (if dtLt cur bs then clip_to_working_hours whs whe minDur cur (pyMin bs endDt) else []) ++
          sweepBusy whs whe minDur endDt (pyMax cur be) rest := rfl

theorem sweepBusy_of_end_le {whs whe : Nat} {minDur : Int} {endDt : DT} :
    ∀ (l : List (DT × DT)) (cur : DT), dtLe endDt cur →
      sweepBusy whs whe minDur endDt cur l = [] := by
  intro l
  induction l with
  | nil =>
    intro cur hle
    rw [sweepBusy_nil, if_neg]
    rw [dtLt_iff, not_lt]
    exact hle
  | cons b rest ih =>
    intro cur hle
    obtain ⟨bs, be⟩ := b
    rw [sweepBusy_cons]
    have hgaps : (if dtLt cur bs then
        clip_to_working_hours whs whe minDur cur (pyMin bs endDt) else []) = [] := by
      split_ifs with h
      · refine clip_of_le ?_
        rw [dtLe_iff, dtAbs_pyMin]
        exact le_trans (min_le_right _ _) hle
      · rfl
    have hbreak : dtLe endDt (pyMax cur be) := by
      rw [dtLe_iff, dtAbs_pyMax]
      exact le_trans hle (le_max_left _ _)
    by_cases h1 : dtLe be cur
    · rw [if_pos h1]
      exact ih cur hle
    · rw [if_neg h1, if_pos hbreak, hgaps]

theorem not_overlaps_of_le_left {s b : DT × DT} (h : dtAbs s.2 ≤ dtAbs b.1) :
    ¬ overlaps s b :=
  not_lt.mpr (le_trans (min_le_left _ _) (le_trans h (le_max_right _ _)))

theorem not_overlaps_of_le_right {s b : DT × DT} (h : dtAbs b.2 ≤ dtAbs s.1) :
    ¬ overlaps s b :=
  not_lt.mpr (le_trans (min_le_right _ _) (le_trans h (le_max_left _ _)))

/-- Every slot emitted by the sweep starts at or after the cursor, is
nonempty, and intersects none of the remaining busy intervals. -/
theorem sweepBusy_slots_spec {whs whe : Nat} {minDur : Int} {endDt : DT} :
    ∀ (l : List (DT × DT)) (cur : DT), List.Pairwise startLe l →
      ∀ s ∈ sweepBusy whs whe minDur endDt cur l,
        dtAbs cur ≤ dtAbs s.1 ∧ dtLt s.1 s.2 ∧ ∀ b ∈ l, ¬ overlaps s b := by
  intro l
  induction l with
  | nil =>
    intro cur _ s hs
    rw [sweepBusy_nil] at hs
    split_ifs at hs
    · obtain ⟨h1, h2, _⟩ := clip_slots_bounds s hs
      exact ⟨h1, h2, by simp⟩
    · simp at hs
  | cons b rest ih =>
    intro cur hsorted s hs
    obtain ⟨bs, be⟩ := b
    rw [List.pairwise_cons] at hsorted
    obtain ⟨hhead, htail⟩ := hsorted
    rw [sweepBusy_cons] at hs
    by_cases h1 : dtLe be cur
    · rw [if_pos h1] at hs
      obtain ⟨ha, hb, hc⟩ := ih cur htail s hs
      refine ⟨ha, hb, ?_⟩
      intro b hbmem
      rw [List.mem_cons] at hbmem
      rcases hbmem with hbmem | hbmem
      · subst hbmem
        exact not_overlaps_of_le_right (le_trans h1 ha)
      · exact hc b hbmem
    · rw [if_neg h1] at hs
      have hgap : ∀ t ∈ (if dtLt cur bs then
          clip_to_working_hours whs whe minDur cur (pyMin bs endDt) else []),
          dtAbs cur ≤ dtAbs t.1 ∧ dtLt t.1 t.2 ∧ dtAbs t.2 ≤ dtAbs bs := by
        intro t ht
        split_ifs at ht
        · obtain ⟨u1, u2, u3⟩ := clip_slots_bounds t ht
          rw [dtAbs_pyMin] at u3
          exact ⟨u1, u2, le_trans u3 (min_le_left _ _)⟩
        · simp at ht
      have hgapcase : ∀ t, (dtAbs cur ≤ dtAbs t.1 ∧ dtLt t.1 t.2 ∧ dtAbs t.2 ≤ dtAbs bs) →
          dtAbs cur ≤ dtAbs t.1 ∧ dtLt t.1 t.2 ∧ ∀ b ∈ (bs, be) :: rest, ¬ overlaps t b := by
        intro t ⟨u1, u2, u3⟩
        refine ⟨u1, u2, ?_⟩
        intro b hbmem
        rw [List.mem_cons] at hbmem
        rcases hbmem with hbmem | hbmem
        · subst hbmem
          exact not_overlaps_of_le_left u3
        · exact not_overlaps_of_le_left (le_trans u3 (hhead b hbmem))
      by_cases h2 : dtLe endDt (pyMax cur be)
      · rw [if_pos h2] at hs
        exact hgapcase s (hgap s hs)
      · rw [if_neg h2] at hs
        rw [List.mem_append] at hs
        rcases hs with hs | hs
        · exact hgapcase s (hgap s hs)
        · obtain ⟨ha, hb, hc⟩ := ih (pyMax cur be) htail s hs
          have hcur2 : dtAbs cur ≤ dtAbs (pyMax cur be) := by
            rw [dtAbs_pyMax]
            exact le_max_left _ _
          have hbe : dtAbs be ≤ dtAbs (pyMax cur be) := by
            rw [dtAbs_pyMax]
            exact le_max_right _ _
          refine ⟨le_trans hcur2 ha, hb, ?_⟩
          intro b hbmem
          rw [List.mem_cons] at hbmem
          rcases hbmem with hbmem | hbmem
          · subst hbmem
            exact not_overlaps_of_le_right (le_trans hbe ha)
          · exact hc b hbmem

/-- The sweep emits its slots chronologically: each slot ends no later
than the next one starts. -/
theorem sweepBusy_pairwise {whs whe : Nat} {minDur : Int} {endDt : DT} (hwhe : whe ≤ 23) :
    ∀ (l : List (DT × DT)) (cur : DT), List.Pairwise startLe l →
      (∀ b ∈ l, dtLe b.1 b.2) →
      List.Pairwise (fun x y => dtAbs x.2 ≤ dtAbs y.1)
        (sweepBusy whs whe minDur endDt cur l) := by
  intro l
  induction l with
  | nil =>
    intro cur _ _
    rw [sweepBusy_nil]
    split_ifs
    · exact clip_pairwise hwhe
    · exact List.Pairwise.nil
  | cons b rest ih =>
    intro cur hsorted hwf
    obtain ⟨bs, be⟩ := b
    rw [List.pairwise_cons] at hsorted
    obtain ⟨hhead, htail⟩ := hsorted
    have hwfhead : dtLe bs be := hwf (bs, be) (List.mem_cons_self _ _)
    have hwftail : ∀ b ∈ rest, dtLe b.1 b.2 := fun b hb => hwf b (List.mem_cons_of_mem _ hb)
    rw [sweepBusy_cons]
    have hgappw : List.Pairwise (fun x y => dtAbs x.2 ≤ dtAbs y.1)
        (if dtLt cur bs then
          clip_to_working_hours whs whe minDur cur (pyMin bs endDt) else []) := by
      split_ifs
      · exact clip_pairwise hwhe
      · exact List.Pairwise.nil
    by_cases h1 : dtLe be cur
    · rw [if_pos h1]
      exact ih cur htail hwftail
    · rw [if_neg h1]
      by_cases h2 : dtLe endDt (pyMax cur be)
      · rw [if_pos h2]
        exact hgappw
      · rw [if_neg h2]
        rw [List.pairwise_append]
        refine ⟨hgappw, ih (pyMax cur be) htail hwftail, ?_⟩
        intro x hx y hy
        have hxend : dtAbs x.2 ≤ dtAbs bs := by
          split_ifs at hx
          · have := (clip_slots_bounds x hx).2.2
            rw [dtAbs_pyMin] at this
            exact le_trans this (min_le_left _ _)
          · simp at hx
        have hystart : dtAbs (pyMax cur be) ≤ dtAbs y.1 :=
          (sweepBusy_slots_spec rest (pyMax cur be) htail y hy).1
        have hbe : dtAbs be ≤ dtAbs (pyMax cur be) := by
          rw [dtAbs_pyMax]
          exact le_max_right _ _
        exact le_trans hxend (le_trans hwfhead (le_trans hbe hystart))

theorem busyRangesSort_pairwise (l : List (DT × DT)) :
    List.Pairwise startLe (busyRangesSort l) :=
  List.sorted_insertionSort startLe l

theorem busyRangesSort_perm (l : List (DT × DT)) : (busyRangesSort l).Perm l :=
  List.perm_insertionSort startLe l

theorem busyRangesSort_mem {l : List (DT × DT)} {b : DT × DT} (h : b ∈ l) :
    b ∈ busyRangesSort l :=
  (busyRangesSort_perm l).mem_iff.mpr h

/-! ## Claim theorems: busy exclusion and slot ordering -/

/-- C2: for every query and every list of busy intervals, no slot returned
by the free-slot computation intersects any input busy interval. -/
theorem C2_busy_exclusion (whs whe : Nat) (minDur : Int) (startDt endDt : DT)
    (busy : List (DT × DT)) (s b : DT × DT)
    (hs : s ∈ get_free_slots_core whs whe minDur startDt endDt busy)
    (hb : b ∈ busy) : ¬ overlaps s b := by
  unfold get_free_slots_core at hs
  exact (sweepBusy_slots_spec (busyRangesSort busy) startDt (busyRangesSort_pairwise busy)
    s hs).2.2 b (busyRangesSort_mem hb)

theorem C2_busy_exclusion_witness :
    ¬ overlaps ((⟨32400, 0⟩ : DT), (⟨43200, 0⟩ : DT)) ((⟨43200, 0⟩ : DT), (⟨46800, 0⟩ : DT)) :=
  C2_busy_exclusion 9 18 30 ⟨32400, 0⟩ ⟨64800, 0⟩ [(⟨43200, 0⟩, ⟨46800, 0⟩)]
    (⟨32400, 0⟩, ⟨43200, 0⟩) (⟨43200, 0⟩, ⟨46800, 0⟩) (by decide) (by decide)

/-- C5: for every query (with working-hour values the code accepts,
`0..23`) and every list of busy intervals — possibly unsorted, overlapping
or adjacent — the returned slots are pairwise non-overlapping and strictly
increasing by start instant in the order emitted. -/
theorem C5_slots_disjoint_sorted (whs whe : Nat) (minDur : Int) (startDt endDt : DT)
    (busy : List (DT × DT)) (_hwhs : whs ≤ 23) (hwhe : whe ≤ 23)
    (hwf : ∀ b ∈ busy, dtLe b.1 b.2) :
    List.Pairwise (fun x y => dtLt x.1 y.1 ∧ ¬ overlaps x y)
      (get_free_slots_core whs whe minDur startDt endDt busy) := by
  unfold get_free_slots_core
  have hwf2 : ∀ b ∈ busyRangesSort busy, dtLe b.1 b.2 := by
    intro b hb
    exact hwf b ((busyRangesSort_perm busy).mem_iff.mp hb)
  have hchain := @sweepBusy_pairwise whs whe minDur endDt hwhe (busyRangesSort busy) startDt
    (busyRangesSort_pairwise busy) hwf2
  refine List.Pairwise.imp_of_mem ?_ hchain
  intro x y hx _ hxy
  have hxlt : dtLt x.1 x.2 :=
    (sweepBusy_slots_spec (busyRangesSort busy) startDt (busyRangesSort_pairwise busy) x hx).2.1
  constructor
  · exact lt_of_lt_of_le hxlt hxy
  · exact not_overlaps_of_le_left hxy

theorem C5_slots_disjoint_sorted_witness :
    List.Pairwise (fun x y => dtLt x.1 y.1 ∧ ¬ overlaps x y)
      (get_free_slots_core 9 18 30 ⟨32400, 0⟩ ⟨64800, 0⟩ [(⟨43200, 0⟩, ⟨46800, 0⟩)]) :=
  C5_slots_disjoint_sorted 9 18 30 ⟨32400, 0⟩ ⟨64800, 0⟩ [(⟨43200, 0⟩, ⟨46800, 0⟩)]
    (by decide) (by decide) (by decide)

/-- C8: spec scenario D — a range spanning from day one 09:00 to day two
11:00 in one offset, with no busy intervals, working hours `(9, 18)` and a
30-minute minimum, yields exactly the slots 09:00-18:00 of day one and
09:00-11:00 of day two, in that order. -/
theorem C8_two_day_range :
    get_free_slots_core 9 18 30 ⟨32400, 0⟩ ⟨126000, 0⟩ [] =
      [((⟨32400, 0⟩ : DT), (⟨64800, 0⟩ : DT)), ((⟨118800, 0⟩ : DT), (⟨126000, 0⟩ : DT))] := by
  decide

/-- C10: for every gap with `gap_start <= gap_end` and working-hour values
in `[0, 23]`, the day-by-day clipping loop terminates: run with the
canonical fuel (one unit per loop iteration), it completes — the cursor
date strictly increases each iteration until it reaches or passes
`gap_end` — and returns `clip_to_working_hours`. -/
theorem C10_clip_terminates (whs whe : Nat) (minDur : Int) (gs ge : DT)
    (_hle : dtLe gs ge) (_hwhs : whs ≤ 23) (_hwhe : whe ≤ 23) :
    clipGo whs whe minDur gs.off ge (clipFuelBound gs ge) gs =
      some (clip_to_working_hours whs whe minDur gs ge) :=
  clipGo_complete whs whe minDur gs ge

theorem C10_clip_terminates_witness :
    dtLe (⟨32400, 0⟩ : DT) (⟨64800, 0⟩ : DT) ∧
      clipGo 9 18 30 (DT.mk 32400 0).off ⟨64800, 0⟩ (clipFuelBound ⟨32400, 0⟩ ⟨64800, 0⟩)
        ⟨32400, 0⟩ = some (clip_to_working_hours 9 18 30 ⟨32400, 0⟩ ⟨64800, 0⟩) :=
  ⟨by decide, C10_clip_terminates 9 18 30 ⟨32400, 0⟩ ⟨64800, 0⟩ (by decide) (by decide) (by decide)⟩

/-! ## Claim theorems: pipeline behaviour -/

/-- C9: whenever the start time parses to an instant strictly before the
current time, `create_event` returns the cannot-create-event-in-the-past
error and sends no insert request to the provider. -/
theorem C9_past_start_rejected (startText : Option ParsedDT) (sp : ParsedDT) (now : DT)
    (insert : InsertOutcome) (hparse : startText = some sp)
    (hpast : dtLt ⟨sp.wall, sp.tz.getD now.off⟩ now) :
    create_event true startText now insert = (false, CreateOutcome.eventInPast) := by
  subst hparse
  simp [create_event, hpast]

theorem C9_past_start_rejected_witness :
    create_event true (some ⟨0, none⟩) ⟨3600, 0⟩ InsertOutcome.ok =
      (false, CreateOutcome.eventInPast) :=
  C9_past_start_rejected (some ⟨0, none⟩) ⟨0, none⟩ ⟨3600, 0⟩ InsertOutcome.ok rfl (by decide)

/-- C3 counterexample: with a naive start and end bound, a local system
offset of `+01:00` (3600 s) and an account timezone of `+02:00` (7200 s)
read successfully from the provider, the bounds are resolved with the
local offset 3600 — not the account timezone 7200 — and the returned slot
carries offset 3600.  This refutes the claim that the reference offset
for naive bounds is the account timezone. -/
theorem C3_counterexample :
    (resolvedStart 3600 ⟨36000, none⟩).off = 3600 ∧
    get_user_timezone (some 7200) = 7200 ∧
    (3600 : Int) ≠ 7200 ∧
    get_free_slots true (some 7200) 3600 (some ⟨36000, none⟩) (some ⟨43200, none⟩)
        (QueryOutcome.ok []) 30 9 18 =
      FreeSlotsOutcome.slots [((⟨36000, 3600⟩ : DT), (⟨43200, 3600⟩ : DT))] := by
  refine ⟨rfl, rfl, by decide, ?_⟩
  decide

/-- C3 amended: a naive start bound is assigned the local system offset,
a naive end bound the offset of the resolved start bound; an aware bound
keeps its own offset.  The account-timezone lookup falls back to UTC on
failure, but its value does not influence the result of
`get_free_slots`. -/
theorem C3_amended (localOff : Int) (sp ep : ParsedDT) (st : DT)
    (authOk : Bool) (tz1 tz2 : Option Int) (startText endText : Option ParsedDT)
    (query : QueryOutcome) (minDur : Int) (whs whe : Nat) :
    (sp.tz = none → (resolvedStart localOff sp).off = localOff) ∧
    (∀ o, sp.tz = some o → (resolvedStart localOff sp).off = o) ∧
    (ep.tz = none → (resolvedEnd st ep).off = st.off) ∧
    (∀ o, ep.tz = some o → (resolvedEnd st ep).off = o) ∧
    get_user_timezone none = 0 ∧
    get_free_slots authOk tz1 localOff startText endText query minDur whs whe =
      get_free_slots authOk tz2 localOff startText endText query minDur whs whe := by
  refine ⟨?_, ?_, ?_, ?_, rfl, ?_⟩
  · intro h
    simp [resolvedStart, h]
  · intro o h
    simp [resolvedStart, h]
  · intro h
    simp [resolvedEnd, h]
  · intro o h
    simp [resolvedEnd, h]
  · cases authOk
    · rfl
    · cases startText with
      | none => rfl
      | some sp2 =>
        cases endText with
        | none => rfl
        | some ep2 => cases query <;> rfl

theorem C3_amended_witness :
    (resolvedStart 3600 ⟨0, none⟩).off = 3600 ∧ (resolvedEnd ⟨0, 5⟩ ⟨0, none⟩).off = 5 :=
  ⟨(C3_amended 3600 ⟨0, none⟩ ⟨0, none⟩ ⟨0, 5⟩ true none none none none
      (QueryOutcome.ok []) 30 9 18).1 rfl,
    (C3_amended 3600 ⟨0, none⟩ ⟨0, none⟩ ⟨0, 5⟩ true none none none none
      (QueryOutcome.ok []) 30 9 18).2.2.1 rfl⟩

/-- C4 counterexample: a query whose range start (18:00) is after its
range end (09:00) is not rejected with any precondition error — there is
no such check in the code; the slot computation runs and the ordinary
no-free-slots response is returned. -/
theorem C4_counterexample :
    dtLt (⟨32400, 0⟩ : DT) (⟨64800, 0⟩ : DT) ∧
    get_free_slots true (some 0) 0 (some ⟨64800, some 0⟩) (some ⟨32400, some 0⟩)
        (QueryOutcome.ok []) 30 9 18 = FreeSlotsOutcome.noSlots := by
  refine ⟨by decide, ?_⟩
  decide

/-- C4 amended: `get_free_slots` performs no precondition validation.
For working-hour values the code accepts (`0..23`), when the auth, parse
and provider phases succeed, the outcome is always the slot list or the
no-slots response (no error originates in the slot computation); in
particular an inverted range (`rangeStart > rangeEnd`) is not rejected:
the sweep runs and returns the no-slots response. -/
theorem C4_amended (tzS : Option Int) (localOff : Int) (sp ep : ParsedDT)
    (busyTexts : List (Option DT × Option DT)) (minDur : Int) (whs whe : Nat)
    (hok : busyTexts.all busyEntryOk = true)
    (_hwhs : whs ≤ 23) (_hwhe : whe ≤ 23) :
    (get_free_slots true tzS localOff (some sp) (some ep) (QueryOutcome.ok busyTexts)
        minDur whs whe = FreeSlotsOutcome.noSlots ∨
      ∃ l, get_free_slots true tzS localOff (some sp) (some ep) (QueryOutcome.ok busyTexts)
        minDur whs whe = FreeSlotsOutcome.slots l) ∧
    (dtLe (resolvedEnd (resolvedStart localOff sp) ep) (resolvedStart localOff sp) →
      get_free_slots true tzS localOff (some sp) (some ep) (QueryOutcome.ok busyTexts)
        minDur whs whe = FreeSlotsOutcome.noSlots) := by
  constructor
  · simp only [get_free_slots, if_true, hok]
    split_ifs
    · exact Or.inl rfl
    · exact Or.inr ⟨_, rfl⟩
  · intro hinv
    have hempty : get_free_slots_core whs whe minDur (resolvedStart localOff sp)
        (resolvedEnd (resolvedStart localOff sp) ep) (parsedBusy busyTexts) = [] := by
      unfold get_free_slots_core
      exact sweepBusy_of_end_le _ _ hinv
    simp only [get_free_slots, if_true, hok]
    simp [hempty]

theorem C4_amended_witness :
    get_free_slots true (some 0) 0 (some ⟨64800, some 0⟩) (some ⟨32400, some 0⟩)
        (QueryOutcome.ok []) 30 9 18 = FreeSlotsOutcome.noSlots :=
  (C4_amended (some 0) 0 ⟨64800, some 0⟩ ⟨32400, some 0⟩ [] 30 9 18 rfl
    (by decide) (by decide)).2 (by decide)

/-- C7 counterexample: a provider busy entry whose start timestamp is
malformed makes `get_free_slots` raise an unhandled `ValueError` (the
parsing loop at lines 218-222 runs before the sweep and sits outside
every `try` block) instead of returning one of the typed error
strings. -/
theorem C7_counterexample :
    get_free_slots true (some 0) 0 (some ⟨32400, some 0⟩) (some ⟨64800, some 0⟩)
        (QueryOutcome.ok [(none, some ⟨43200, 0⟩)]) 30 9 18 =
      FreeSlotsOutcome.raised := by
  decide

/-- C7 amended: for working-hour values the code accepts (`0..23`),
failures of the auth, bound-parsing and provider-query phases are
surfaced as typed errors, and the outcome is a single value (full result
or error, never both); but `get_free_slots` escapes with an unhandled
exception exactly when those phases succeed and some busy timestamp
returned by the provider fails to parse — the parsing loop runs in full
before the sweep, so one malformed entry anywhere raises. -/
theorem C7_amended (authOk : Bool) (tzS : Option Int) (localOff : Int)
    (startText endText : Option ParsedDT) (query : QueryOutcome)
    (minDur : Int) (whs whe : Nat) (_hwhs : whs ≤ 23) (_hwhe : whe ≤ 23) :
    get_free_slots authOk tzS localOff startText endText query minDur whs whe =
        FreeSlotsOutcome.raised ↔
      (authOk = true ∧ (∃ sp, startText = some sp) ∧ (∃ ep, endText = some ep) ∧
        ∃ bl, query = QueryOutcome.ok bl ∧ bl.all busyEntryOk = false) := by
  cases authOk
  · simp [get_free_slots]
  · cases startText with
    | none => simp [get_free_slots]
    | some sp =>
      cases endText with
      | none => simp [get_free_slots]
      | some ep =>
        cases query with
        | ok bl =>
          by_cases hok : bl.all busyEntryOk = true
          · simp only [get_free_slots]
            rw [if_pos trivial, if_pos hok]
            constructor
            · intro h
              split_ifs at h
            · rintro ⟨-, -, -, bl2, hbl2, hfalse⟩
              rw [QueryOutcome.ok.injEq] at hbl2
              subst hbl2
              rw [hok] at hfalse
              cases hfalse
          · simp only [get_free_slots]
            rw [if_pos trivial, if_neg hok]
            rw [Bool.not_eq_true] at hok
            exact ⟨fun _ => ⟨trivial, ⟨sp, rfl⟩, ⟨ep, rfl⟩, bl, rfl, hok⟩, fun _ => rfl⟩
        | httpQuota => simp [get_free_slots]
        | httpServer => simp [get_free_slots]
        | httpOther => simp [get_free_slots]
        | exn => simp [get_free_slots]

theorem C7_amended_witness :
    get_free_slots true (some 0) 0 (some ⟨32400, some 0⟩) (some ⟨64800, some 0⟩)
        (QueryOutcome.ok [(none, none)]) 30 9 18 = FreeSlotsOutcome.raised :=
  (C7_amended true (some 0) 0 (some ⟨32400, some 0⟩) (some ⟨64800, some 0⟩)
      (QueryOutcome.ok [(none, none)]) 30 9 18 (by decide) (by decide)).mpr
    ⟨rfl, ⟨_, rfl⟩, ⟨_, rfl⟩, [(none, none)], rfl, rfl⟩

/-- C1 counterexample: an empty-busy query over 10:00-10:20 with a
30-minute minimum inside working hours 9-18 returns no slots (total 0 s),
while the range intersected with the daily working-hours windows measures
1200 s; so the returned total does not equal the intersection exactly. -/
theorem C1_counterexample :
    totalDuration (get_free_slots_core 9 18 30 ⟨36000, 0⟩ ⟨37200, 0⟩ []) = 0 ∧
    workingHoursOverlapTotal 9 18 ⟨36000, 0⟩ ⟨37200, 0⟩ = 1200 ∧
    (0 : Int) ≠ 1200 := by
  refine ⟨by decide, ?_, by decide⟩
  decide

/-- C6 counterexample: the busy list `[j, m, i]` (well-formed intervals,
`j` and `i` overlapping) yields a different free-slot result than the
list with `j` and `i` replaced by their union: with mixed UTC offsets the
merge changes which datetime representative propagates into the sweep
cursor, moving the final slot from `118800+02:00` to `118800+00:00`
(absolute instants 111600 vs 118800). -/
theorem C6_counterexample :
    (∀ b ∈ [((⟨36000, 0⟩ : DT), (⟨68400, 0⟩ : DT)), ((⟨43200, 0⟩ : DT), (⟨79200, 7200⟩ : DT)),
        ((⟨50400, 0⟩ : DT), (⟨72000, 0⟩ : DT))], dtLe b.1 b.2) ∧
    overlaps ((⟨36000, 0⟩ : DT), (⟨68400, 0⟩ : DT)) ((⟨50400, 0⟩ : DT), (⟨72000, 0⟩ : DT)) ∧
    get_free_slots_core 9 18 30 ⟨28800, 0⟩ ⟨129600, 0⟩
        [(⟨36000, 0⟩, ⟨68400, 0⟩), (⟨43200, 0⟩, ⟨79200, 7200⟩), (⟨50400, 0⟩, ⟨72000, 0⟩)] ≠
      get_free_slots_core 9 18 30 ⟨28800, 0⟩ ⟨129600, 0⟩
        [unionInterval (⟨36000, 0⟩, ⟨68400, 0⟩) (⟨50400, 0⟩, ⟨72000, 0⟩),
          (⟨43200, 0⟩, ⟨79200, 7200⟩)] := by
  refine ⟨by decide, by decide, ?_⟩
  decide

/-! ## No-busy coverage: the clipping loop measured day by day -/

theorem totalDuration_nil : totalDuration [] = 0 := rfl

theorem totalDuration_cons (a b : DT) (l : List (DT × DT)) :
    totalDuration ((a, b) :: l) = dtSub b a + totalDuration l := by
  simp [totalDuration]

theorem cursor_day (d0 k whs : Nat) (hwhs : whs ≤ 23) :
    ((d0 + k) * 86400 + whs * 3600) / 86400 = d0 + k := by
  have h1 : whs * 3600 < 86400 := by omega
  rw [Nat.mul_comm (d0 + k) 86400, Nat.mul_add_div (by omega)]
  rw [Nat.div_eq_of_lt h1]
  omega

theorem gs_wall_lt_next_day (gs : DT) : gs.wall < (gs.wall / 86400 + 1) * 86400 := by
  have h1 := Nat.div_add_mod gs.wall 86400
  have h2 : gs.wall % 86400 < 86400 := Nat.mod_lt _ (by omega)
  omega

/-- One clipping iteration per calendar day: a successful run of the loop
from the `k`-th day cursor accounts exactly for the window contributions
of days `k, k+1, ...`, each counted when at least `minDur` minutes
long. -/
theorem clipGo_totalDuration (whs whe : Nat) (minDur : Int) (gs ge : DT)
    (hmin : 0 < minDur) (hwhs : whs ≤ 23) :
    ∀ (fuel k : Nat) (cur : DT) (res : List (DT × DT)),
      clipGo whs whe minDur gs.off ge fuel cur = some res →
      ((k = 0 ∧ cur = gs) ∨
        (1 ≤ k ∧ cur = ⟨(gs.wall / 86400 + k) * 86400 + whs * 3600, gs.off⟩)) →
      totalDuration res =
        ∑ j ∈ Finset.Ico k (daysSpan gs ge),
          (if windowContribution whs whe gs ge j ≥ minDur * 60 then
            windowContribution whs whe gs ge j else 0) := by
  intro fuel
  induction fuel with
  | zero =>
    intro k cur res h hcur
    by_cases hg : dtLt cur ge
    · simp [clipGo, hg] at h
    · rw [clipGo_of_not_lt 0 cur hg] at h
      rw [Option.some.injEq] at h
      subst h
      rw [totalDuration_nil]
      symm
      apply Finset.sum_eq_zero
      intro j hj
      rw [Finset.mem_Ico] at hj
      rw [if_neg]
      rw [not_le]
      have hzero : windowContribution whs whe gs ge j = 0 := by
        unfold windowContribution
        rw [dtLt_iff, not_lt] at hg
        rcases hcur with ⟨hk, hcureq⟩ | ⟨hk, hcureq⟩
        · rw [hcureq] at hg
          have : min (dtAbs ge)
              (((gs.wall / 86400 + j : Nat) : Int) * 86400 + (whe : Int) * 3600 - gs.off) -
              max (dtAbs gs)
              (((gs.wall / 86400 + j : Nat) : Int) * 86400 + (whs : Int) * 3600 - gs.off) ≤ 0 := by
            have h1 : min (dtAbs ge)
                (((gs.wall / 86400 + j : Nat) : Int) * 86400 + (whe : Int) * 3600 - gs.off) ≤
                dtAbs ge := min_le_left _ _
            have h2 : dtAbs gs ≤ max (dtAbs gs)
                (((gs.wall / 86400 + j : Nat) : Int) * 86400 + (whs : Int) * 3600 - gs.off) :=
              le_max_left _ _
            omega
          omega
        · rw [hcureq] at hg
          have hja : k ≤ j := hj.1
          have habscur : dtAbs ⟨(gs.wall / 86400 + k) * 86400 + whs * 3600, gs.off⟩ =
              ((gs.wall / 86400 + k : Nat) : Int) * 86400 + (whs : Int) * 3600 - gs.off := by
            rw [dtAbs_mk]
            push_cast
            ring
          rw [habscur] at hg
          have hmono : ((gs.wall / 86400 + k : Nat) : Int) * 86400 + (whs : Int) * 3600 - gs.off ≤
              ((gs.wall / 86400 + j : Nat) : Int) * 86400 + (whs : Int) * 3600 - gs.off := by
            have : ((gs.wall / 86400 + k : Nat) : Int) ≤ ((gs.wall / 86400 + j : Nat) : Int) := by
              push_cast
              omega
            nlinarith
          have : min (dtAbs ge)
              (((gs.wall / 86400 + j : Nat) : Int) * 86400 + (whe : Int) * 3600 - gs.off) -
              max (dtAbs gs)
              (((gs.wall / 86400 + j : Nat) : Int) * 86400 + (whs : Int) * 3600 - gs.off) ≤ 0 := by
            have h1 : min (dtAbs ge)
                (((gs.wall / 86400 + j : Nat) : Int) * 86400 + (whe : Int) * 3600 - gs.off) ≤
                dtAbs ge := min_le_left _ _
            have h2 : ((gs.wall / 86400 + j : Nat) : Int) * 86400 + (whs : Int) * 3600 - gs.off ≤
                max (dtAbs gs)
                (((gs.wall / 86400 + j : Nat) : Int) * 86400 + (whs : Int) * 3600 - gs.off) :=
              le_max_right _ _
            omega
          omega
      rw [hzero]
      omega
  | succ n ih =>
    intro k cur res h hcur
    by_cases hg : dtLt cur ge
    swap
    · rw [clipGo_of_not_lt (n + 1) cur hg] at h
      rw [Option.some.injEq] at h
      subst h
      rw [totalDuration_nil]
      symm
      apply Finset.sum_eq_zero
      intro j hj
      rw [Finset.mem_Ico] at hj
      rw [if_neg]
      rw [not_le]
      have hzero : windowContribution whs whe gs ge j = 0 := by
        unfold windowContribution
        rw [dtLt_iff, not_lt] at hg
        rcases hcur with ⟨hk, hcureq⟩ | ⟨hk, hcureq⟩
        · rw [hcureq] at hg
          have h1 : min (dtAbs ge)
              (((gs.wall / 86400 + j : Nat) : Int) * 86400 + (whe : Int) * 3600 - gs.off) ≤
              dtAbs ge := min_le_left _ _
          have h2 : dtAbs gs ≤ max (dtAbs gs)
              (((gs.wall / 86400 + j : Nat) : Int) * 86400 + (whs : Int) * 3600 - gs.off) :=
            le_max_left _ _
          omega
        · rw [hcureq] at hg
          have hja : k ≤ j := hj.1
          have habscur : dtAbs ⟨(gs.wall / 86400 + k) * 86400 + whs * 3600, gs.off⟩ =
              ((gs.wall / 86400 + k : Nat) : Int) * 86400 + (whs : Int) * 3600 - gs.off := by
            rw [dtAbs_mk]
            push_cast
            ring
          rw [habscur] at hg
          have hmono : ((gs.wall / 86400 + k : Nat) : Int) * 86400 + (whs : Int) * 3600 - gs.off ≤
              ((gs.wall / 86400 + j : Nat) : Int) * 86400 + (whs : Int) * 3600 - gs.off := by
            have hkj : ((gs.wall / 86400 + k : Nat) : Int) ≤ ((gs.wall / 86400 + j : Nat) : Int) := by
              push_cast
              omega
            nlinarith
          have h1 : min (dtAbs ge)
              (((gs.wall / 86400 + j : Nat) : Int) * 86400 + (whe : Int) * 3600 - gs.off) ≤
              dtAbs ge := min_le_left _ _
          have h2 : ((gs.wall / 86400 + j : Nat) : Int) * 86400 + (whs : Int) * 3600 - gs.off ≤
              max (dtAbs gs)
              (((gs.wall / 86400 + j : Nat) : Int) * 86400 + (whs : Int) * 3600 - gs.off) :=
            le_max_right _ _
          omega
      rw [hzero]
      omega
    · -- loop body runs: the current day is day k
      have hoff : cur.off = gs.off := by
        rcases hcur with ⟨_, hcureq⟩ | ⟨_, hcureq⟩ <;> subst hcureq <;> rfl
      have hday : cur.wall / 86400 = gs.wall / 86400 + k := by
        rcases hcur with ⟨hk, hcureq⟩ | ⟨_, hcureq⟩
        · subst hcureq hk
          omega
        · subst hcureq
          exact cursor_day _ k whs hwhs
      have habsWs : dtAbs (replaceHour cur whs) =
          ((gs.wall / 86400 + k : Nat) : Int) * 86400 + (whs : Int) * 3600 - gs.off := by
        rw [dtAbs_replaceHour, hday, hoff]
        push_cast
        ring
      have habsWe : dtAbs (replaceHour cur whe) =
          ((gs.wall / 86400 + k : Nat) : Int) * 86400 + (whe : Int) * 3600 - gs.off := by
        rw [dtAbs_replaceHour, hday, hoff]
        push_cast
        ring
      have habsSs : dtAbs (pyMax cur (replaceHour cur whs)) =
          max (dtAbs gs)
            (((gs.wall / 86400 + k : Nat) : Int) * 86400 + (whs : Int) * 3600 - gs.off) := by
        rw [dtAbs_pyMax, habsWs]
        rcases hcur with ⟨hk, hcureq⟩ | ⟨hk, hcureq⟩
        · subst hcureq
          rfl
        · subst hcureq
          have habscur : dtAbs ⟨(gs.wall / 86400 + k) * 86400 + whs * 3600, gs.off⟩ =
              ((gs.wall / 86400 + k : Nat) : Int) * 86400 + (whs : Int) * 3600 - gs.off := by
            rw [dtAbs_mk]
            push_cast
            ring
          rw [habscur]
          have hgs : dtAbs gs ≤
              ((gs.wall / 86400 + k : Nat) : Int) * 86400 + (whs : Int) * 3600 - gs.off := by
            have h1 := gs_wall_lt_next_day gs
            have h2 : ((gs.wall / 86400 + 1 : Nat) : Int) * 86400 ≤
                ((gs.wall / 86400 + k : Nat) : Int) * 86400 := by
              have : ((gs.wall / 86400 + 1 : Nat) : Int) ≤ ((gs.wall / 86400 + k : Nat) : Int) := by
                push_cast
                omega
              nlinarith
            unfold dtAbs
            push_cast at h2 ⊢
            omega
          rw [max_self, max_eq_right hgs]
      have habsSe : dtAbs (pyMin ge (replaceHour cur whe)) =
          min (dtAbs ge)
            (((gs.wall / 86400 + k : Nat) : Int) * 86400 + (whe : Int) * 3600 - gs.off) := by
        rw [dtAbs_pyMin, habsWe]
      have hklt : k < daysSpan gs ge := by
        unfold daysSpan
        rcases hcur with ⟨hk, _⟩ | ⟨hk, hcureq⟩
        · omega
        · subst hcureq
          rw [dtLt_iff] at hg
          have habscur : dtAbs ⟨(gs.wall / 86400 + k) * 86400 + whs * 3600, gs.off⟩ =
              ((gs.wall / 86400 + k : Nat) : Int) * 86400 + (whs : Int) * 3600 - gs.off := by
            rw [dtAbs_mk]
            push_cast
            ring
          rw [habscur] at hg
          have hX : ((k : Int)) * 86400 <
              dtAbs ge + gs.off - ((gs.wall / 86400 : Nat) : Int) * 86400 := by
            push_cast at hg ⊢
            nlinarith [Int.natCast_nonneg whs]
          set X : Int := dtAbs ge + gs.off - ((gs.wall / 86400 : Nat) : Int) * 86400 with hXdef
          have hXpos : 0 < X := lt_of_le_of_lt (by positivity) hX
          have hXtoNat : (X.toNat : Int) = X := Int.toNat_of_nonneg (le_of_lt hXpos)
          have hkn : k * 86400 < X.toNat := by
            have : ((k * 86400 : Nat) : Int) < (X.toNat : Int) := by
              rw [hXtoNat]
              push_cast
              omega
            exact_mod_cast this
          have : k ≤ X.toNat / 86400 := by
            rw [Nat.le_div_iff_mul_le (by omega)]
            omega
          omega
      -- unfold one loop iteration
      rw [clipGo_succ_def, if_pos hg] at h
      cases hrec : clipGo whs whe minDur gs.off ge n (nextDayAt cur whs gs.off) with
      | none => rw [hrec] at h; simp at h
      | some rest =>
        rw [hrec] at h
        have hnext : nextDayAt cur whs gs.off =
            ⟨(gs.wall / 86400 + (k + 1)) * 86400 + whs * 3600, gs.off⟩ := by
          unfold nextDayAt
          rw [hday]
          have : gs.wall / 86400 + k + 1 = gs.wall / 86400 + (k + 1) := by omega
          rw [this]
        have hrestsum := ih (k + 1) (nextDayAt cur whs gs.off) rest hrec
          (Or.inr ⟨by omega, hnext⟩)
        have hpeel : ∑ j ∈ Finset.Ico k (daysSpan gs ge),
            (if windowContribution whs whe gs ge j ≥ minDur * 60 then
              windowContribution whs whe gs ge j else 0) =
            (if windowContribution whs whe gs ge k ≥ minDur * 60 then
              windowContribution whs whe gs ge k else 0) +
            ∑ j ∈ Finset.Ico (k + 1) (daysSpan gs ge),
              (if windowContribution whs whe gs ge j ≥ minDur * 60 then
                windowContribution whs whe gs ge j else 0) :=
          Finset.sum_eq_sum_Ico_succ_bot hklt _
        have hcond_iff : (dtLt (pyMax cur (replaceHour cur whs))
              (pyMin ge (replaceHour cur whe)) ∧
            dtSub (pyMin ge (replaceHour cur whe)) (pyMax cur (replaceHour cur whs)) ≥
              minDur * 60) ↔
            windowContribution whs whe gs ge k ≥ minDur * 60 := by
          rw [dtLt_iff]
          unfold dtSub windowContribution
          rw [habsSs, habsSe]
          constructor
          · intro ⟨h1, h2⟩
            omega
          · intro h1
            omega
        split_ifs at h with hcond
        · rw [Option.some.injEq] at h
          subst h
          rw [totalDuration_cons, hpeel, hrestsum]
          rw [if_pos (hcond_iff.mp hcond)]
          have hc := hcond_iff.mp hcond
          unfold dtSub
          unfold windowContribution at hc ⊢
          rw [habsSs, habsSe]
          omega
        · rw [Option.some.injEq] at h
          subst h
          rw [hpeel, hrestsum, if_neg]
          · omega
          · intro hck
            exact hcond (hcond_iff.mpr hck)

/-- C1 amended: with an empty busy list, a well-ordered range, a positive
minimum duration and valid working hours, the total duration of the
returned slots equals the duration of the range intersected with the
daily working-hours windows, after discarding each day whose intersection
is shorter than the minimum duration. -/
theorem C1_amended_coverage (whs whe : Nat) (minDur : Int) (startDt endDt : DT)
    (hrange : dtLe startDt endDt) (hmin : 0 < minDur) (_hwh : whs < whe) (hwhe : whe ≤ 23) :
    totalDuration (get_free_slots_core whs whe minDur startDt endDt []) =
      clippedWorkingHoursTotal whs whe minDur startDt endDt := by
  have hwhs : whs ≤ 23 := by omega
  show totalDuration (sweepBusy whs whe minDur endDt startDt []) = _
  rw [sweepBusy_nil]
  unfold clippedWorkingHoursTotal
  by_cases hg : dtLt startDt endDt
  · rw [if_pos hg]
    have hmain := clipGo_totalDuration whs whe minDur startDt endDt hmin hwhs
      (clipFuelBound startDt endDt) 0 startDt (clip_to_working_hours whs whe minDur startDt endDt)
      (clipGo_complete whs whe minDur startDt endDt) (Or.inl ⟨rfl, rfl⟩)
    rw [hmain, Finset.range_eq_Ico]
  · rw [if_neg hg]
    rw [totalDuration_nil]
    symm
    apply Finset.sum_eq_zero
    intro j _
    rw [if_neg]
    rw [not_le]
    have hzero : windowContribution whs whe startDt endDt j = 0 := by
      unfold windowContribution
      rw [dtLt_iff, not_lt] at hg
      rw [dtLe_iff] at hrange
      have h1 : min (dtAbs endDt)
          (((startDt.wall / 86400 + j : Nat) : Int) * 86400 + (whe : Int) * 3600 - startDt.off) ≤
          dtAbs endDt := min_le_left _ _
      have h2 : dtAbs startDt ≤ max (dtAbs startDt)
          (((startDt.wall / 86400 + j : Nat) : Int) * 86400 + (whs : Int) * 3600 - startDt.off) :=
        le_max_left _ _
      omega
    rw [hzero]
    omega

theorem C1_amended_coverage_witness :
    totalDuration (get_free_slots_core 9 18 30 ⟨30000, 0⟩ ⟨300000, 0⟩ []) =
      clippedWorkingHoursTotal 9 18 30 ⟨30000, 0⟩ ⟨300000, 0⟩ :=
  C1_amended_coverage 9 18 30 ⟨30000, 0⟩ ⟨300000, 0⟩ (by decide) (by decide) (by decide) (by decide)

/-! ## Merge idempotence under one common offset -/

theorem DT.ext_wall_off {a b : DT} (hw : a.wall = b.wall) (ho : a.off = b.off) : a = b := by
  cases a
  cases b
  simp_all

theorem dtLt_wall {o : Int} {a b : DT} (ha : a.off = o) (hb : b.off = o) :
    dtLt a b ↔ a.wall < b.wall := by
  unfold dtLt dtAbs
  rw [ha, hb]
  omega

theorem dtLe_wall {o : Int} {a b : DT} (ha : a.off = o) (hb : b.off = o) :
    dtLe a b ↔ a.wall ≤ b.wall := by
  unfold dtLe dtAbs
  rw [ha, hb]
  omega

theorem pyMax_uniform {o : Int} {a b : DT} (ha : a.off = o) (hb : b.off = o) :
    pyMax a b = ⟨max a.wall b.wall, o⟩ := by
  unfold pyMax
  split_ifs with h
  · have hw : a.wall < b.wall := (dtLt_wall ha hb).mp h
    refine DT.ext_wall_off ?_ hb
    show b.wall = max a.wall b.wall
    omega
  · have hw : b.wall ≤ a.wall := by
      rw [dtLt_wall ha hb] at h
      omega
    refine DT.ext_wall_off ?_ ha
    show a.wall = max a.wall b.wall
    omega

theorem pyMin_uniform {o : Int} {a b : DT} (ha : a.off = o) (hb : b.off = o) :
    pyMin a b = ⟨min a.wall b.wall, o⟩ := by
  unfold pyMin
  split_ifs with h
  · have hw : b.wall ≤ a.wall := (dtLt_wall hb ha).mp h |> le_of_lt
    refine DT.ext_wall_off ?_ hb
    show b.wall = min a.wall b.wall
    omega
  · have hw : a.wall ≤ b.wall := by
      rw [dtLt_wall hb ha] at h
      omega
    refine DT.ext_wall_off ?_ ha
    show a.wall = min a.wall b.wall
    omega

theorem pyMax_off_cases {a b : DT} {o : Int} (ha : a.off = o) (hb : b.off = o) :
    (pyMax a b).off = o := by
  rcases pyMax_cases a b with h | h <;> rw [h] <;> assumption

/-- Replacing the tail below a common head keeps the sweep equal, as long
as the tails agree from every cursor with the common offset. -/
theorem sweepBusy_cons_congr {whs whe : Nat} {minDur : Int} {endDt : DT} {o : Int}
    (hd : DT × DT) (t1 t2 : List (DT × DT)) (cur : DT)
    (hco : cur.off = o) (hdo : hd.2.off = o)
    (H : ∀ c : DT, c.off = o → sweepBusy whs whe minDur endDt c t1 =
      sweepBusy whs whe minDur endDt c t2) :
    sweepBusy whs whe minDur endDt cur (hd :: t1) =
      sweepBusy whs whe minDur endDt cur (hd :: t2) := by
  obtain ⟨bs, be⟩ := hd
  rw [sweepBusy_cons, sweepBusy_cons]
  by_cases h1 : dtLe be cur
  · rw [if_pos h1, if_pos h1]
    exact H cur hco
  · rw [if_neg h1, if_neg h1]
    by_cases h2 : dtLe endDt (pyMax cur be)
    · rw [if_pos h2, if_pos h2]
    · rw [if_neg h2, if_neg h2]
      rw [H (pyMax cur be) (pyMax_off_cases hco hdo)]

/-- Prefix version of `sweepBusy_cons_congr`. -/
theorem sweepBusy_append_congr {whs whe : Nat} {minDur : Int} {endDt : DT} {o : Int} :
    ∀ (A : List (DT × DT)), (∀ b ∈ A, b.2.off = o) →
      ∀ (t1 t2 : List (DT × DT)),
      (∀ c : DT, c.off = o → sweepBusy whs whe minDur endDt c t1 =
        sweepBusy whs whe minDur endDt c t2) →
      ∀ (cur : DT), cur.off = o →
      sweepBusy whs whe minDur endDt cur (A ++ t1) =
        sweepBusy whs whe minDur endDt cur (A ++ t2) := by
  intro A
  induction A with
  | nil =>
    intro _ t1 t2 H cur hco
    exact H cur hco
  | cons hd A2 ih =>
    intro hoffs t1 t2 H cur hco
    rw [List.cons_append, List.cons_append]
    refine sweepBusy_cons_congr hd (A2 ++ t1) (A2 ++ t2) cur hco
      (hoffs hd (List.mem_cons_self _ _)) ?_
    intro c hc
    exact ih (fun b hb => hoffs b (List.mem_cons_of_mem _ hb)) t1 t2 H c hc

/-- Normal form of the sweep on two leading busy intervals that share a
start, when the first is not yet consumed: the cursor jumps to the
maximum of the three ends, one gap at most is emitted. -/
theorem sweepBusy_pair_normal {whs whe : Nat} {minDur : Int} {endDt : DT} {o : Int}
    (heo : endDt.off = o) (s e1 e2 : DT) (t : List (DT × DT)) (cur : DT)
    (hco : cur.off = o) (h1o : e1.off = o) (h2o : e2.off = o)
    (hwf1 : dtLe s e1) (h1 : ¬ dtLe e1 cur) :
    sweepBusy whs whe minDur endDt cur ((s, e1) :: (s, e2) :: t) =
      if dtLe endDt ⟨max (max cur.wall e1.wall) e2.wall, o⟩ then
        (if dtLt cur s then clip_to_working_hours whs whe minDur cur (pyMin s endDt) else [])
      else
        (if dtLt cur s then clip_to_working_hours whs whe minDur cur (pyMin s endDt) else []) ++
          sweepBusy whs whe minDur endDt ⟨max (max cur.wall e1.wall) e2.wall, o⟩ t := by
  have hmax1 : pyMax cur e1 = ⟨max cur.wall e1.wall, o⟩ := pyMax_uniform hco h1o
  rw [sweepBusy_cons, if_neg h1, hmax1]
  by_cases hbr1 : dtLe endDt ⟨max cur.wall e1.wall, o⟩
  · rw [if_pos hbr1]
    have hbig : dtLe endDt ⟨max (max cur.wall e1.wall) e2.wall, o⟩ := by
      rw [dtLe_wall heo rfl] at hbr1 ⊢
      simp only at hbr1 ⊢
      omega
    rw [if_pos hbig]
  · rw [if_neg hbr1]
    rw [sweepBusy_cons]
    by_cases hA2 : dtLe e2 (⟨max cur.wall e1.wall, o⟩ : DT)
    · rw [if_pos hA2]
      have hwalls : max (max cur.wall e1.wall) e2.wall = max cur.wall e1.wall := by
        rw [dtLe_wall h2o rfl] at hA2
        simp only at hA2
        omega
      rw [hwalls, if_neg hbr1]
    · rw [if_neg hA2]
      have hnogap : ¬ dtLt (⟨max cur.wall e1.wall, o⟩ : DT) s := by
        rw [dtLt_iff, not_lt]
        have hse1 : dtAbs s ≤ (e1.wall : Int) - o := by
          rw [dtLe_iff] at hwf1
          refine le_trans hwf1 ?_
          unfold dtAbs
          rw [h1o]
        have habs : dtAbs (⟨max cur.wall e1.wall, o⟩ : DT) =
            ((max cur.wall e1.wall : Nat) : Int) - o := rfl
        rw [habs]
        have h2 : (e1.wall : Int) ≤ ((max cur.wall e1.wall : Nat) : Int) := by
          exact_mod_cast le_max_right cur.wall e1.wall
        omega
      have hmax2 : pyMax (⟨max cur.wall e1.wall, o⟩ : DT) e2 =
          ⟨max (max cur.wall e1.wall) e2.wall, o⟩ := pyMax_uniform rfl h2o
      rw [hmax2]
      simp only [if_neg hnogap]
      by_cases hend2 : dtLe endDt (⟨max (max cur.wall e1.wall) e2.wall, o⟩ : DT)
      · simp only [if_pos hend2]
        rw [List.append_nil]
      · simp only [if_neg hend2]
        rw [List.nil_append]

/-- Two adjacent busy intervals with the same start can be processed in
either order without changing the sweep (common offset). -/
theorem sweepBusy_swap {whs whe : Nat} {minDur : Int} {endDt : DT} {o : Int}
    (heo : endDt.off = o) (s e1 e2 : DT) (t : List (DT × DT)) (cur : DT)
    (hco : cur.off = o) (h1o : e1.off = o) (h2o : e2.off = o)
    (hwf1 : dtLe s e1) (hwf2 : dtLe s e2) :
    sweepBusy whs whe minDur endDt cur ((s, e1) :: (s, e2) :: t) =
      sweepBusy whs whe minDur endDt cur ((s, e2) :: (s, e1) :: t) := by
  by_cases hA : dtLe e1 cur
  · by_cases hB : dtLe e2 cur
    · have hL : sweepBusy whs whe minDur endDt cur ((s, e1) :: (s, e2) :: t) =
          sweepBusy whs whe minDur endDt cur t := by
        rw [sweepBusy_cons, if_pos hA, sweepBusy_cons, if_pos hB]
      have hR : sweepBusy whs whe minDur endDt cur ((s, e2) :: (s, e1) :: t) =
          sweepBusy whs whe minDur endDt cur t := by
        rw [sweepBusy_cons, if_pos hB, sweepBusy_cons, if_pos hA]
      rw [hL, hR]
    · have hL : sweepBusy whs whe minDur endDt cur ((s, e1) :: (s, e2) :: t) =
          if dtLe endDt (⟨max cur.wall e2.wall, o⟩ : DT) then
            (if dtLt cur s then clip_to_working_hours whs whe minDur cur (pyMin s endDt) else [])
          else
            (if dtLt cur s then
              clip_to_working_hours whs whe minDur cur (pyMin s endDt) else []) ++
              sweepBusy whs whe minDur endDt ⟨max cur.wall e2.wall, o⟩ t := by
        rw [sweepBusy_cons, if_pos hA]
        rw [sweepBusy_cons, if_neg hB, pyMax_uniform hco h2o]
      have hR : sweepBusy whs whe minDur endDt cur ((s, e2) :: (s, e1) :: t) =
          if dtLe endDt (⟨max cur.wall e2.wall, o⟩ : DT) then
            (if dtLt cur s then clip_to_working_hours whs whe minDur cur (pyMin s endDt) else [])
          else
            (if dtLt cur s then
              clip_to_working_hours whs whe minDur cur (pyMin s endDt) else []) ++
              sweepBusy whs whe minDur endDt ⟨max cur.wall e2.wall, o⟩ t := by
        rw [sweepBusy_pair_normal heo s e2 e1 t cur hco h2o h1o hwf2 hB]
        have hw1 : e1.wall ≤ cur.wall := (dtLe_wall h1o hco).mp hA
        have hmaxeq : max (max cur.wall e2.wall) e1.wall = max cur.wall e2.wall := by omega
        rw [hmaxeq]
      rw [hL, hR]
  · by_cases hB : dtLe e2 cur
    · have hL : sweepBusy whs whe minDur endDt cur ((s, e1) :: (s, e2) :: t) =
          if dtLe endDt (⟨max cur.wall e1.wall, o⟩ : DT) then
            (if dtLt cur s then clip_to_working_hours whs whe minDur cur (pyMin s endDt) else [])
          else
            (if dtLt cur s then
              clip_to_working_hours whs whe minDur cur (pyMin s endDt) else []) ++
              sweepBusy whs whe minDur endDt ⟨max cur.wall e1.wall, o⟩ t := by
        rw [sweepBusy_pair_normal heo s e1 e2 t cur hco h1o h2o hwf1 hA]
        have hw2 : e2.wall ≤ cur.wall := (dtLe_wall h2o hco).mp hB
        have hmaxeq : max (max cur.wall e1.wall) e2.wall = max cur.wall e1.wall := by omega
        rw [hmaxeq]
      have hR : sweepBusy whs whe minDur endDt cur ((s, e2) :: (s, e1) :: t) =
          if dtLe endDt (⟨max cur.wall e1.wall, o⟩ : DT) then
            (if dtLt cur s then clip_to_working_hours whs whe minDur cur (pyMin s endDt) else [])
          else
            (if dtLt cur s then
              clip_to_working_hours whs whe minDur cur (pyMin s endDt) else []) ++
              sweepBusy whs whe minDur endDt ⟨max cur.wall e1.wall, o⟩ t := by
        rw [sweepBusy_cons, if_pos hB]
        rw [sweepBusy_cons, if_neg hA, pyMax_uniform hco h1o]
      rw [hL, hR]
    · rw [sweepBusy_pair_normal heo s e1 e2 t cur hco h1o h2o hwf1 hA,
          sweepBusy_pair_normal heo s e2 e1 t cur hco h2o h1o hwf2 hB]
      have hmaxeq : max (max cur.wall e1.wall) e2.wall = max (max cur.wall e2.wall) e1.wall := by
        omega
      rw [hmaxeq]

/-- A busy interval further down the list whose start the cursor has
already passed only pushes the cursor: processing it now or absorbing its
end into the cursor immediately gives the same sweep (common offset). -/
theorem sweepBusy_absorb {whs whe : Nat} {minDur : Int} {endDt : DT} {o : Int}
    (C : List (DT × DT)) (j : DT × DT)
    (hjo : j.2.off = o) (hjwf : dtLe j.1 j.2) :
    ∀ (B : List (DT × DT)) (c1 : DT), c1.off = o → (∀ b ∈ B, b.2.off = o) →
      (∀ b ∈ B, dtAbs b.1 ≤ dtAbs c1) → dtAbs j.1 ≤ dtAbs c1 →
      sweepBusy whs whe minDur endDt c1 (B ++ j :: C) =
        sweepBusy whs whe minDur endDt (pyMax c1 j.2) (B ++ C) := by
  obtain ⟨js, je⟩ := j
  intro B
  induction B with
  | nil =>
    intro c1 hc1o _ _ hjs
    rw [List.nil_append, List.nil_append, sweepBusy_cons]
    by_cases hsk : dtLe je c1
    · rw [if_pos hsk]
      have hmax : pyMax c1 je = c1 := by
        unfold pyMax
        rw [if_neg]
        rw [dtLt_iff, not_lt]
        exact hsk
      rw [hmax]
    · rw [if_neg hsk]
      have hgapneg : ¬ dtLt c1 js := by
        rw [dtLt_iff, not_lt]
        exact hjs
      simp only [if_neg hgapneg]
      by_cases hend : dtLe endDt (pyMax c1 je)
      · rw [if_pos hend]
        rw [sweepBusy_of_end_le C (pyMax c1 je) hend]
      · rw [if_neg hend, List.nil_append]
  | cons b B2 ih =>
    obtain ⟨bs, be⟩ := b
    intro c1 hc1o hBo hB hjs
    have hbo : be.off = o := hBo (bs, be) (List.mem_cons_self _ _)
    have hbs : dtAbs bs ≤ dtAbs c1 := hB (bs, be) (List.mem_cons_self _ _)
    have hBo2 : ∀ x ∈ B2, x.2.off = o := fun x hx => hBo x (List.mem_cons_of_mem _ hx)
    have hB2 : ∀ x ∈ B2, dtAbs x.1 ≤ dtAbs c1 := fun x hx => hB x (List.mem_cons_of_mem _ hx)
    have hmaxo : (pyMax c1 (je : DT)).off = o := pyMax_off_cases hc1o hjo
    have habs_le_max : dtAbs c1 ≤ dtAbs (pyMax c1 je) := by
      rw [dtAbs_pyMax]
      exact le_max_left _ _
    rw [List.cons_append, List.cons_append, sweepBusy_cons]
    by_cases hsk : dtLe be c1
    · rw [if_pos hsk]
      have hR : sweepBusy whs whe minDur endDt (pyMax c1 je) ((bs, be) :: (B2 ++ C)) =
          sweepBusy whs whe minDur endDt (pyMax c1 je) (B2 ++ C) := by
        rw [sweepBusy_cons, if_pos]
        rw [dtLe_iff] at hsk ⊢
        exact le_trans hsk habs_le_max
      rw [hR]
      exact ih c1 hc1o hBo2 hB2 hjs
    · rw [if_neg hsk]
      have hgapneg : ¬ dtLt c1 bs := by
        rw [dtLt_iff, not_lt]
        exact hbs
      simp only [if_neg hgapneg]
      have hgapneg2 : ¬ dtLt (pyMax c1 je) bs := by
        rw [dtLt_iff, not_lt]
        exact le_trans hbs habs_le_max
      by_cases hbr : dtLe endDt (pyMax c1 be)
      · rw [if_pos hbr]
        symm
        rw [sweepBusy_cons]
        by_cases hsk2 : dtLe be (pyMax c1 je)
        · rw [if_pos hsk2]
          apply sweepBusy_of_end_le
          rw [dtLe_iff] at hbr hsk2 ⊢
          rw [dtAbs_pyMax] at hbr ⊢
          rw [dtAbs_pyMax] at hsk2
          omega
        · rw [if_neg hsk2]
          simp only [if_neg hgapneg2]
          rw [if_pos]
          rw [dtLe_iff] at hbr ⊢
          rw [dtAbs_pyMax] at hbr ⊢
          rw [dtAbs_pyMax]
          omega
      · rw [if_neg hbr, List.nil_append]
        have hbeo : (pyMax c1 (be : DT)).off = o := pyMax_off_cases hc1o hbo
        have hLHS := ih (pyMax c1 be) hbeo hBo2
          (fun x hx => le_trans (hB2 x hx) (by rw [dtAbs_pyMax]; exact le_max_left _ _))
          (le_trans hjs (by rw [dtAbs_pyMax]; exact le_max_left _ _))
        rw [hLHS]
        have hcur_eq : pyMax (pyMax c1 be) je = ⟨max (max c1.wall be.wall) je.wall, o⟩ := by
          rw [pyMax_uniform hc1o hbo, pyMax_uniform (show (⟨max c1.wall be.wall, o⟩ : DT).off = o from rfl) hjo]
        have hcur_eq2 : pyMax (pyMax c1 je) be = ⟨max (max c1.wall je.wall) be.wall, o⟩ := by
          rw [pyMax_uniform hc1o hjo, pyMax_uniform (show (⟨max c1.wall je.wall, o⟩ : DT).off = o from rfl) hbo]
        symm
        rw [sweepBusy_cons]
        by_cases hsk2 : dtLe be (pyMax c1 je)
        · rw [if_pos hsk2]
          have hwalls : pyMax (pyMax c1 be) je = pyMax c1 je := by
            rw [hcur_eq, pyMax_uniform hc1o hjo]
            have hw : be.wall ≤ max c1.wall je.wall := by
              rw [dtLe_iff, dtAbs_pyMax] at hsk2
              unfold dtAbs at hsk2
              rw [hbo, hc1o, hjo] at hsk2
              omega
            refine DT.ext_wall_off ?_ rfl
            show max (max c1.wall be.wall) je.wall = max c1.wall je.wall
            omega
          rw [← hwalls]
        · rw [if_neg hsk2]
          simp only [if_neg hgapneg2]
          have hwalls2 : pyMax (pyMax c1 je) be = pyMax (pyMax c1 be) je := by
            rw [hcur_eq, hcur_eq2]
            refine DT.ext_wall_off ?_ rfl
            show max (max c1.wall je.wall) be.wall = max (max c1.wall be.wall) je.wall
            omega
          rw [hwalls2]
          by_cases hbr2 : dtLe endDt (pyMax (pyMax c1 be) je)
          · rw [if_pos hbr2]
            rw [sweepBusy_of_end_le (B2 ++ C) _ hbr2]
          · rw [if_neg hbr2, List.nil_append]

/-- Replacing a busy interval and a later overlapping-or-adjacent one
(with no emission in between, as all the intervals separating them start
no later) by their union does not change the sweep (common offset). -/
theorem sweepBusy_merge_mid {whs whe : Nat} {minDur : Int} {endDt : DT} {o : Int}
    (B C : List (DT × DT)) (is ie js je : DT)
    (_hio1 : is.off = o) (hio2 : ie.off = o) (_hjo1 : js.off = o) (hjo2 : je.off = o)
    (hBo : ∀ b ∈ B, b.2.off = o)
    (hij : dtAbs is ≤ dtAbs js) (hover : dtAbs js ≤ dtAbs ie)
    (hiwf : dtLe is ie) (hjwf : dtLe js je)
    (hB : ∀ b ∈ B, dtAbs b.1 ≤ dtAbs js) :
    ∀ (cur : DT), cur.off = o →
      sweepBusy whs whe minDur endDt cur ((is, ie) :: (B ++ (js, je) :: C)) =
        sweepBusy whs whe minDur endDt cur (unionInterval (is, ie) (js, je) :: (B ++ C)) := by
  intro cur hco
  have hu1 : pyMin is js = is := by
    unfold pyMin
    rw [if_neg]
    rw [dtLt_iff, not_lt]
    exact hij
  have hu2abs : dtAbs (pyMax ie je) = max (dtAbs ie) (dtAbs je) := dtAbs_pyMax ie je
  have hu2off : (pyMax ie je).off = o := pyMax_off_cases hio2 hjo2
  show sweepBusy whs whe minDur endDt cur ((is, ie) :: (B ++ (js, je) :: C)) =
    sweepBusy whs whe minDur endDt cur ((pyMin is js, pyMax ie je) :: (B ++ C))
  rw [hu1]
  rw [sweepBusy_cons, sweepBusy_cons]
  by_cases hsk : dtLe ie cur
  · have habsorb := @sweepBusy_absorb whs whe minDur endDt o C (js, je) hjo2 hjwf B cur hco hBo
      (fun b hb => le_trans (hB b hb) (le_trans hover hsk))
      (le_trans hover hsk)
    by_cases hsk2 : dtLe je cur
    · rw [if_pos hsk]
      rw [if_pos (show dtLe (pyMax ie je) cur by
        rw [dtLe_iff, dtAbs_pyMax]
        rw [dtLe_iff] at hsk hsk2
        omega)]
      rw [habsorb]
      have hmaxc : pyMax cur (js, je).2 = cur := by
        unfold pyMax
        rw [if_neg]
        rw [dtLt_iff, not_lt]
        exact hsk2
      rw [hmaxc]
    · rw [if_pos hsk]
      rw [if_neg (show ¬ dtLe (pyMax ie je) cur by
        rw [dtLe_iff, dtAbs_pyMax]
        rw [dtLe_iff] at hsk2
        rw [dtLe_iff] at hsk
        omega)]
      have hgapneg : ¬ dtLt cur is := by
        rw [dtLt_iff, not_lt]
        exact le_trans hiwf hsk
      simp only [if_neg hgapneg]
      have hcureq : pyMax cur (pyMax ie je) = pyMax cur je := by
        rw [pyMax_uniform hio2 hjo2, pyMax_uniform hco (show (⟨max ie.wall je.wall, o⟩ : DT).off = o from rfl),
          pyMax_uniform hco hjo2]
        refine DT.ext_wall_off ?_ rfl
        show max cur.wall (max ie.wall je.wall) = max cur.wall je.wall
        have hw : ie.wall ≤ cur.wall := by
          rw [dtLe_iff] at hsk
          unfold dtAbs at hsk
          rw [hio2, hco] at hsk
          omega
        omega
      rw [hcureq, habsorb]
      by_cases hbr : dtLe endDt (pyMax cur je)
      · rw [if_pos hbr]
        exact sweepBusy_of_end_le (B ++ C) (pyMax cur je) hbr
      · rw [if_neg hbr, List.nil_append]
  · rw [if_neg hsk]
    rw [if_neg (show ¬ dtLe (pyMax ie je) cur by
      rw [dtLe_iff, dtAbs_pyMax]
      rw [dtLe_iff] at hsk
      omega)]
    have hmaxo1 : (pyMax cur ie).off = o := pyMax_off_cases hco hio2
    have hcur1_ge : dtAbs ie ≤ dtAbs (pyMax cur ie) := by
      rw [dtAbs_pyMax]
      exact le_max_right _ _
    have hcureq : pyMax cur (pyMax ie je) = pyMax (pyMax cur ie) je := by
      rw [pyMax_uniform hio2 hjo2, pyMax_uniform hco hio2,
        pyMax_uniform hco (show (⟨max ie.wall je.wall, o⟩ : DT).off = o from rfl),
        pyMax_uniform (show (⟨max cur.wall ie.wall, o⟩ : DT).off = o from rfl) hjo2]
      refine DT.ext_wall_off ?_ rfl
      show max cur.wall (max ie.wall je.wall) = max (max cur.wall ie.wall) je.wall
      omega
    rw [hcureq]
    have habsorb := @sweepBusy_absorb whs whe minDur endDt o C (js, je) hjo2 hjwf B
      (pyMax cur ie) hmaxo1 hBo
      (fun b hb => le_trans (hB b hb) (le_trans hover hcur1_ge))
      (le_trans hover hcur1_ge)
    by_cases hbr1 : dtLe endDt (pyMax cur ie)
    · rw [if_pos hbr1]
      rw [if_pos (show dtLe endDt (pyMax (pyMax cur ie) je) by
        rw [dtLe_iff, dtAbs_pyMax] at hbr1 ⊢
        rw [dtAbs_pyMax]
        omega)]
    · rw [if_neg hbr1, habsorb]
      by_cases hbr2 : dtLe endDt (pyMax (pyMax cur ie) je)
      · rw [if_pos hbr2]
        rw [sweepBusy_of_end_le (B ++ C) _ hbr2, List.append_nil]
      · rw [if_neg hbr2]

/-- A busy interval can be bubbled to the front through a prefix of
intervals that all share its start instant (common offset). -/
theorem sweepBusy_bubble {whs whe : Nat} {minDur : Int} {endDt : DT} {o : Int}
    (heo : endDt.off = o) :
    ∀ (P : List (DT × DT)) (g : DT × DT) (T : List (DT × DT)) (cur : DT),
      cur.off = o →
      (∀ p ∈ P, p.1.off = o ∧ p.2.off = o) → g.1.off = o → g.2.off = o →
      (∀ p ∈ P, dtLe p.1 p.2) → dtLe g.1 g.2 →
      (∀ p ∈ P, dtAbs p.1 = dtAbs g.1) →
      sweepBusy whs whe minDur endDt cur (P ++ g :: T) =
        sweepBusy whs whe minDur endDt cur (g :: P ++ T) := by
  intro P
  induction P with
  | nil =>
    intro g T cur _ _ _ _ _ _ _
    rfl
  | cons p P2 ih =>
    intro g T cur hco hPo hgo1 hgo2 hPwf hgwf hPkey
    have hpo := hPo p (List.mem_cons_self _ _)
    have hpwf := hPwf p (List.mem_cons_self _ _)
    have hpkey := hPkey p (List.mem_cons_self _ _)
    have hpg : p.1 = g.1 := by
      refine DT.ext_wall_off ?_ (by rw [hpo.1, hgo1])
      unfold dtAbs at hpkey
      rw [hpo.1, hgo1] at hpkey
      omega
    have hstep1 : sweepBusy whs whe minDur endDt cur ((p :: P2) ++ g :: T) =
        sweepBusy whs whe minDur endDt cur (p :: g :: P2 ++ T) := by
      rw [List.cons_append]
      refine sweepBusy_cons_congr p (P2 ++ g :: T) (g :: P2 ++ T) cur hco hpo.2 ?_
      intro c hc
      exact ih g T c hc (fun x hx => hPo x (List.mem_cons_of_mem _ hx)) hgo1 hgo2
        (fun x hx => hPwf x (List.mem_cons_of_mem _ hx)) hgwf
        (fun x hx => hPkey x (List.mem_cons_of_mem _ hx))
    have hstep2 : sweepBusy whs whe minDur endDt cur (p :: g :: P2 ++ T) =
        sweepBusy whs whe minDur endDt cur (g :: p :: P2 ++ T) := by
      obtain ⟨p1, p2⟩ := p
      obtain ⟨g1, g2⟩ := g
      have hpg2 : p1 = g1 := hpg
      subst hpg2
      exact sweepBusy_swap heo p1 p2 g2 (P2 ++ T) cur hco hpo.2 hgo2 hpwf hgwf
    rw [hstep1, hstep2]

/-- The sweep depends only on the sorted busy list up to permutation:
two sorted permutations of the same busy multiset sweep identically
(common offset, well-formed intervals). -/
theorem sweepBusy_sorted_perm {whs whe : Nat} {minDur : Int} {endDt : DT} {o : Int}
    (heo : endDt.off = o) :
    ∀ (n : Nat) (l1 l2 : List (DT × DT)) (cur : DT),
      l1.length ≤ n → l1.Perm l2 →
      List.Pairwise startLe l1 → List.Pairwise startLe l2 →
      (∀ b ∈ l1, b.1.off = o ∧ b.2.off = o) → (∀ b ∈ l1, dtLe b.1 b.2) →
      cur.off = o →
      sweepBusy whs whe minDur endDt cur l1 = sweepBusy whs whe minDur endDt cur l2 := by
  intro n
  induction n with
  | zero =>
    intro l1 l2 cur hlen hperm _ _ _ _ _
    have h1 : l1 = [] := List.eq_nil_of_length_eq_zero (Nat.le_zero.mp hlen)
    subst h1
    have h2 : l2 = [] := hperm.symm.eq_nil
    subst h2
    rfl
  | succ n ih =>
    intro l1 l2 cur hlen hperm hs1 hs2 hoff hwf hco
    cases l1 with
    | nil =>
      have h2 : l2 = [] := hperm.symm.eq_nil
      subst h2
      rfl
    | cons a t1 =>
      cases l2 with
      | nil =>
        have := hperm.length_eq
        simp at this
      | cons b t2 =>
        by_cases hab : a = b
        · subst hab
          refine sweepBusy_cons_congr a t1 t2 cur hco (hoff a (List.mem_cons_self _ _)).2 ?_
          intro c hc
          exact ih t1 t2 c (by simpa using hlen) hperm.cons_inv
            (List.pairwise_cons.mp hs1).2 (List.pairwise_cons.mp hs2).2
            (fun x hx => hoff x (List.mem_cons_of_mem _ hx))
            (fun x hx => hwf x (List.mem_cons_of_mem _ hx)) hc
        · have hbmem : b ∈ a :: t1 := hperm.mem_iff.mpr (List.mem_cons_self _ _)
          have hbt1 : b ∈ t1 := by
            rcases List.mem_cons.mp hbmem with h | h
            · exact absurd h.symm hab
            · exact h
          obtain ⟨X, Y, hXY⟩ := List.append_of_mem hbt1
          subst hXY
          have hamem : a ∈ b :: t2 := hperm.mem_iff.mp (List.mem_cons_self _ _)
          have hat2 : a ∈ t2 := by
            rcases List.mem_cons.mp hamem with h | h
            · exact absurd h hab
            · exact h
          have hs1c := List.pairwise_cons.mp hs1
          have hs2c := List.pairwise_cons.mp hs2
          have hk_ab : dtAbs a.1 = dtAbs b.1 :=
            le_antisymm (hs1c.1 b hbt1) (hs2c.1 a hat2)
          have hkX : ∀ p ∈ a :: X, dtAbs p.1 = dtAbs b.1 := by
            intro p hp
            rcases List.mem_cons.mp hp with h | h
            · subst h
              exact hk_ab
            · have h1 : dtAbs a.1 ≤ dtAbs p.1 := hs1c.1 p (by
                rw [List.mem_append]
                exact Or.inl h)
              have h2 : dtAbs p.1 ≤ dtAbs b.1 := by
                have hdec := List.pairwise_append.mp hs1c.2
                exact hdec.2.2 p h b (List.mem_cons_self _ _)
              exact le_antisymm h2 (hk_ab ▸ h1)
          have hsub : List.Sublist ((a :: X) ++ Y) ((a :: X) ++ b :: Y) :=
            List.Sublist.append_left (List.sublist_cons_self b Y) (a :: X)
          have hoffP : ∀ p ∈ a :: X, p.1.off = o ∧ p.2.off = o := by
            intro p hp
            refine hoff p ?_
            rcases List.mem_cons.mp hp with h | h
            · subst h
              exact List.mem_cons_self _ _
            · exact List.mem_cons_of_mem _ (by rw [List.mem_append]; exact Or.inl h)
          have hwfP : ∀ p ∈ a :: X, dtLe p.1 p.2 := by
            intro p hp
            refine hwf p ?_
            rcases List.mem_cons.mp hp with h | h
            · subst h
              exact List.mem_cons_self _ _
            · exact List.mem_cons_of_mem _ (by rw [List.mem_append]; exact Or.inl h)
          have hbmem2 : b ∈ a :: (X ++ b :: Y) :=
            List.mem_cons_of_mem _ (by
              rw [List.mem_append]
              exact Or.inr (List.mem_cons_self _ _))
          have hobo := hoff b hbmem2
          have hwfb := hwf b hbmem2
          have hbub := @sweepBusy_bubble whs whe minDur endDt o heo (a :: X) b Y cur hco
            hoffP hobo.1 hobo.2 hwfP hwfb hkX
          rw [show a :: (X ++ b :: Y) = (a :: X) ++ b :: Y from rfl, hbub]
          refine sweepBusy_cons_congr b ((a :: X) ++ Y) t2 cur hco hobo.2 ?_
          intro c hc
          have hperm2 : ((a :: X) ++ Y).Perm t2 := by
            have hp1 : ((a :: X) ++ b :: Y).Perm (b :: ((a :: X) ++ Y)) := List.perm_middle
            have hp2 : (b :: ((a :: X) ++ Y)).Perm (b :: t2) := hp1.symm.trans hperm
            exact hp2.cons_inv
          refine ih ((a :: X) ++ Y) t2 c ?_ hperm2 ?_ (List.pairwise_cons.mp hs2).2 ?_ ?_ hc
          · have hl := hperm2.length_eq
            have hl2 := hperm.length_eq
            simp at hl hl2 ⊢
            simp at hlen
            omega
          · exact hs1.sublist (List.Sublist.cons₂ a (List.Sublist.append_left (List.sublist_cons_self b Y) X))
          · intro x hx
            exact hoff x (hsub.subset hx)
          · intro x hx
            exact hwf x (hsub.subset hx)

theorem perm_two_split {α : Type _} {S M : List α} {x y : α}
    (h : S.Perm (x :: y :: M)) :
    ∃ A B C, (S = A ++ x :: (B ++ y :: C) ∨ S = A ++ y :: (B ++ x :: C)) ∧
      ((A ++ B) ++ C).Perm M := by
  have hx : x ∈ S := h.mem_iff.mpr (List.mem_cons_self _ _)
  obtain ⟨A0, T, rfl⟩ := List.append_of_mem hx
  have h1 : (A0 ++ x :: T).Perm (x :: (A0 ++ T)) := List.perm_middle
  have h2 : (A0 ++ T).Perm (y :: M) := (h1.symm.trans h).cons_inv
  have hy : y ∈ A0 ++ T := h2.mem_iff.mpr (List.mem_cons_self _ _)
  rw [List.mem_append] at hy
  rcases hy with hy | hy
  · obtain ⟨A1, A2, rfl⟩ := List.append_of_mem hy
    refine ⟨A1, A2, T, Or.inr (by simp), ?_⟩
    have h3 : ((A1 ++ y :: A2) ++ x :: T).Perm (x :: ((A1 ++ y :: A2) ++ T)) :=
      List.perm_middle
    have h4 : ((A1 ++ y :: A2) ++ T).Perm (y :: M) := (h3.symm.trans h).cons_inv
    have h5 : (A1 ++ y :: (A2 ++ T)).Perm (y :: (A1 ++ (A2 ++ T))) := List.perm_middle
    have h6 : (A1 ++ y :: A2) ++ T = A1 ++ y :: (A2 ++ T) := by simp
    have h7 : (A1 ++ (A2 ++ T)).Perm M := (h5.symm.trans (h6 ▸ h4)).cons_inv
    have h8 : (A1 ++ A2) ++ T = A1 ++ (A2 ++ T) := by simp
    rw [h8]
    exact h7
  · obtain ⟨B0, C0, rfl⟩ := List.append_of_mem hy
    refine ⟨A0, B0, C0, Or.inl rfl, ?_⟩
    have h5 : ((A0 ++ B0) ++ y :: C0).Perm (y :: ((A0 ++ B0) ++ C0)) := List.perm_middle
    have h6 : A0 ++ (B0 ++ y :: C0) = (A0 ++ B0) ++ y :: C0 := by simp
    exact (h5.symm.trans (h6 ▸ h2)).cons_inv

theorem pairwise_extract {α : Type _} {R : α → α → Prop} {A B C : List α} {f g : α}
    (h : List.Pairwise R (A ++ f :: (B ++ g :: C))) :
    R f g ∧ ∀ b ∈ B, R b g := by
  have h1 := (List.pairwise_append.mp h).2.1
  have h2 := List.pairwise_cons.mp h1
  constructor
  · exact h2.1 g (by
      rw [List.mem_append]
      exact Or.inr (List.mem_cons_self _ _))
  · intro b hb
    have h3 := List.pairwise_append.mp h2.2
    exact h3.2.2 b hb g (List.mem_cons_self _ _)

theorem pairwise_startLe_replace {A D : List (DT × DT)} {f u : DT × DT}
    (h : List.Pairwise startLe (A ++ f :: D)) (hk : dtAbs u.1 = dtAbs f.1) :
    List.Pairwise startLe (A ++ u :: D) := by
  rw [List.pairwise_append] at h ⊢
  obtain ⟨hA, hfD, hcross⟩ := h
  rw [List.pairwise_cons] at hfD ⊢
  refine ⟨hA, ⟨?_, hfD.2⟩, ?_⟩
  · intro d hd
    have := hfD.1 d hd
    unfold startLe at this ⊢
    omega
  · intro a ha x hx
    rw [List.mem_cons] at hx
    rcases hx with hx | hx
    · subst hx
      have := hcross a ha f (List.mem_cons_self _ _)
      unfold startLe at this ⊢
      omega
    · exact hcross a ha x (List.mem_cons_of_mem _ hx)

theorem unionInterval_comm {o : Int} {i j : DT × DT}
    (hi1 : i.1.off = o) (hi2 : i.2.off = o) (hj1 : j.1.off = o) (hj2 : j.2.off = o) :
    unionInterval i j = unionInterval j i := by
  unfold unionInterval
  rw [pyMin_uniform hi1 hj1, pyMin_uniform hj1 hi1, pyMax_uniform hi2 hj2,
    pyMax_uniform hj2 hi2]
  rw [Prod.mk.injEq]
  constructor
  · exact DT.ext_wall_off (by show min _ _ = min _ _; omega) rfl
  · exact DT.ext_wall_off (by show max _ _ = max _ _; omega) rfl

/-- Common core of the merge-idempotence argument: in the sorted busy
list, replacing the earlier interval `f` and the later overlapping one
`g` by their union, then re-sorting any list with the merged multiset,
sweeps identically. -/
theorem sweep_merge_assemble {whs whe : Nat} {minDur : Int} {startDt endDt : DT} {o : Int}
    (hso : startDt.off = o) (heo : endDt.off = o)
    (A B C M : List (DT × DT)) (f g : DT × DT) (LR : List (DT × DT))
    (hSsorted : List.Pairwise startLe (A ++ f :: (B ++ g :: C)))
    (hMperm : ((A ++ B) ++ C).Perm M)
    (hoffsS : ∀ b ∈ A ++ f :: (B ++ g :: C), b.1.off = o ∧ b.2.off = o)
    (hwfS : ∀ b ∈ A ++ f :: (B ++ g :: C), dtLe b.1 b.2)
    (hover2 : dtAbs g.1 ≤ dtAbs f.2)
    (hLRperm : LR.Perm (unionInterval f g :: M)) :
    sweepBusy whs whe minDur endDt startDt (A ++ f :: (B ++ g :: C)) =
      sweepBusy whs whe minDur endDt startDt (busyRangesSort LR) := by
  have hfmem : f ∈ A ++ f :: (B ++ g :: C) := by simp
  have hgmem : g ∈ A ++ f :: (B ++ g :: C) := by simp
  have hfoff := hoffsS f hfmem
  have hgoff := hoffsS g hgmem
  have hfwf := hwfS f hfmem
  have hgwf := hwfS g hgmem
  obtain ⟨hfg, hBg⟩ := pairwise_extract hSsorted
  have hBsubS : ∀ b ∈ B, b ∈ A ++ f :: (B ++ g :: C) := by
    intro b hb
    simp only [List.mem_append, List.mem_cons]
    exact Or.inr (Or.inr (Or.inl hb))
  have hCsubS : ∀ b ∈ C, b ∈ A ++ f :: (B ++ g :: C) := by
    intro b hb
    simp only [List.mem_append, List.mem_cons]
    exact Or.inr (Or.inr (Or.inr (Or.inr hb)))
  have hAsubS : ∀ b ∈ A, b ∈ A ++ f :: (B ++ g :: C) := by
    intro b hb
    simp only [List.mem_append]
    exact Or.inl hb
  have huoff1 : (unionInterval f g).1.off = o := by
    show (pyMin f.1 g.1).off = o
    rcases pyMin_cases f.1 g.1 with h | h <;> rw [h]
    · exact hfoff.1
    · exact hgoff.1
  have huoff2 : (unionInterval f g).2.off = o := by
    show (pyMax f.2 g.2).off = o
    rcases pyMax_cases f.2 g.2 with h | h <;> rw [h]
    · exact hfoff.2
    · exact hgoff.2
  have huwf : dtLe (unionInterval f g).1 (unionInterval f g).2 := by
    show dtLe (pyMin f.1 g.1) (pyMax f.2 g.2)
    rw [dtLe_iff, dtAbs_pyMin, dtAbs_pyMax]
    rw [dtLe_iff] at hfwf
    omega
  have huabs1 : dtAbs (unionInterval f g).1 = dtAbs f.1 := by
    show dtAbs (pyMin f.1 g.1) = dtAbs f.1
    rw [dtAbs_pyMin]
    have : dtAbs f.1 ≤ dtAbs g.1 := hfg
    omega
  have hstep1 : sweepBusy whs whe minDur endDt startDt (A ++ f :: (B ++ g :: C)) =
      sweepBusy whs whe minDur endDt startDt (A ++ unionInterval f g :: (B ++ C)) := by
    refine sweepBusy_append_congr A (fun b hb => (hoffsS b (hAsubS b hb)).2)
      (f :: (B ++ g :: C)) (unionInterval f g :: (B ++ C)) ?_ startDt hso
    intro c hc
    exact @sweepBusy_merge_mid whs whe minDur endDt o B C f.1 f.2 g.1 g.2
      hfoff.1 hfoff.2 hgoff.1 hgoff.2
      (fun b hb => (hoffsS b (hBsubS b hb)).2)
      hfg hover2 hfwf hgwf hBg c hc
  rw [hstep1]
  have hsub2 : List.Sublist (A ++ f :: (B ++ C)) (A ++ f :: (B ++ g :: C)) :=
    List.Sublist.append_left
      (List.Sublist.cons₂ f (List.Sublist.append_left (List.sublist_cons_self g C) B)) A
  have hsorted2 : List.Pairwise startLe (A ++ unionInterval f g :: (B ++ C)) :=
    pairwise_startLe_replace (hSsorted.sublist hsub2) huabs1
  have hmemcases : ∀ x ∈ A ++ unionInterval f g :: (B ++ C),
      x = unionInterval f g ∨ x ∈ A ++ f :: (B ++ g :: C) := by
    intro x hx
    rw [List.mem_append, List.mem_cons, List.mem_append] at hx
    rcases hx with hx | hx | hx | hx
    · exact Or.inr (hAsubS x hx)
    · exact Or.inl hx
    · exact Or.inr (hBsubS x hx)
    · exact Or.inr (hCsubS x hx)
  have hperm2 : (A ++ unionInterval f g :: (B ++ C)).Perm (busyRangesSort LR) := by
    have p1 : (A ++ unionInterval f g :: (B ++ C)).Perm
        (unionInterval f g :: (A ++ (B ++ C))) := List.perm_middle
    have e1 : A ++ (B ++ C) = (A ++ B) ++ C := by simp
    refine p1.trans ?_
    refine (List.Perm.cons _ (e1 ▸ hMperm)).trans ?_
    exact hLRperm.symm.trans (busyRangesSort_perm LR).symm
  refine sweepBusy_sorted_perm heo (A ++ unionInterval f g :: (B ++ C)).length
    (A ++ unionInterval f g :: (B ++ C)) (busyRangesSort LR) startDt (le_refl _)
    hperm2 hsorted2 (busyRangesSort_pairwise LR) ?_ ?_ hso
  · intro x hx
    rcases hmemcases x hx with hx2 | hx2
    · subst hx2
      exact ⟨huoff1, huoff2⟩
    · exact hoffsS x hx2
  · intro x hx
    rcases hmemcases x hx with hx2 | hx2
    · subst hx2
      exact huwf
    · exact hwfS x hx2

/-- C6 amended: provided the range bounds and every busy-interval
endpoint carry one common UTC offset, replacing two overlapping or
adjacent busy intervals of the input list with their single union
interval yields an identical free-slot result. -/
theorem C6_amended_merge (whs whe : Nat) (minDur : Int) (startDt endDt : DT) (o : Int)
    (L1 L2 L3 : List (DT × DT)) (i j : DT × DT)
    (hso : startDt.off = o) (heo : endDt.off = o)
    (hoffs : ∀ b ∈ L1 ++ i :: (L2 ++ j :: L3), b.1.off = o ∧ b.2.off = o)
    (hwf : ∀ b ∈ L1 ++ i :: (L2 ++ j :: L3), dtLe b.1 b.2)
    (hover : max (dtAbs i.1) (dtAbs j.1) ≤ min (dtAbs i.2) (dtAbs j.2)) :
    get_free_slots_core whs whe minDur startDt endDt (L1 ++ i :: (L2 ++ j :: L3)) =
      get_free_slots_core whs whe minDur startDt endDt
        (L1 ++ unionInterval i j :: (L2 ++ L3)) := by
  have himem : i ∈ L1 ++ i :: (L2 ++ j :: L3) := by simp
  have hjmem : j ∈ L1 ++ i :: (L2 ++ j :: L3) := by simp
  have hioff := hoffs i himem
  have hjoff := hoffs j hjmem
  have hLperm : (L1 ++ i :: (L2 ++ j :: L3)).Perm (i :: j :: ((L1 ++ L2) ++ L3)) := by
    refine List.perm_middle.trans (List.Perm.cons i ?_)
    have e1 : L1 ++ (L2 ++ j :: L3) = (L1 ++ L2) ++ j :: L3 := by simp
    rw [e1]
    exact List.perm_middle
  have hLRperm : (L1 ++ unionInterval i j :: (L2 ++ L3)).Perm
      (unionInterval i j :: ((L1 ++ L2) ++ L3)) := by
    refine List.perm_middle.trans (List.Perm.cons _ ?_)
    have e1 : L1 ++ (L2 ++ L3) = (L1 ++ L2) ++ L3 := by simp
    rw [e1]
  have hSperm := busyRangesSort_perm (L1 ++ i :: (L2 ++ j :: L3))
  have hSsorted := busyRangesSort_pairwise (L1 ++ i :: (L2 ++ j :: L3))
  have hoffsS : ∀ b ∈ busyRangesSort (L1 ++ i :: (L2 ++ j :: L3)),
      b.1.off = o ∧ b.2.off = o :=
    fun b hb => hoffs b (hSperm.mem_iff.mp hb)
  have hwfS : ∀ b ∈ busyRangesSort (L1 ++ i :: (L2 ++ j :: L3)), dtLe b.1 b.2 :=
    fun b hb => hwf b (hSperm.mem_iff.mp hb)
  obtain ⟨A, B, C, hdec, hMperm⟩ := perm_two_split (hSperm.trans hLperm)
  show sweepBusy whs whe minDur endDt startDt (busyRangesSort (L1 ++ i :: (L2 ++ j :: L3))) =
    sweepBusy whs whe minDur endDt startDt
      (busyRangesSort (L1 ++ unionInterval i j :: (L2 ++ L3)))
  rcases hdec with hdec | hdec
  · rw [hdec] at hoffsS hwfS hSsorted ⊢
    refine sweep_merge_assemble hso heo A B C ((L1 ++ L2) ++ L3) i j _ hSsorted hMperm
      hoffsS hwfS ?_ hLRperm
    have h1 : dtAbs j.1 ≤ max (dtAbs i.1) (dtAbs j.1) := le_max_right _ _
    have h2 : min (dtAbs i.2) (dtAbs j.2) ≤ dtAbs i.2 := min_le_left _ _
    omega
  · rw [hdec] at hoffsS hwfS hSsorted ⊢
    have huu : unionInterval i j = unionInterval j i :=
      unionInterval_comm hioff.1 hioff.2 hjoff.1 hjoff.2
    refine sweep_merge_assemble hso heo A B C ((L1 ++ L2) ++ L3) j i _ hSsorted hMperm
      hoffsS hwfS ?_ (huu ▸ hLRperm)
    have h1 : dtAbs i.1 ≤ max (dtAbs i.1) (dtAbs j.1) := le_max_left _ _
    have h2 : min (dtAbs i.2) (dtAbs j.2) ≤ dtAbs j.2 := min_le_right _ _
    omega

theorem C6_amended_merge_witness :
    get_free_slots_core 9 18 30 ⟨3600, 3600⟩ ⟨200000, 3600⟩
        ([] ++ ((⟨36000, 3600⟩ : DT), (⟨68400, 3600⟩ : DT)) ::
          ([((⟨43200, 3600⟩ : DT), (⟨79200, 3600⟩ : DT))] ++
            ((⟨50400, 3600⟩ : DT), (⟨72000, 3600⟩ : DT)) :: [])) =
      get_free_slots_core 9 18 30 ⟨3600, 3600⟩ ⟨200000, 3600⟩
        ([] ++ unionInterval ((⟨36000, 3600⟩ : DT), (⟨68400, 3600⟩ : DT))
            ((⟨50400, 3600⟩ : DT), (⟨72000, 3600⟩ : DT)) ::
          ([((⟨43200, 3600⟩ : DT), (⟨79200, 3600⟩ : DT))] ++ [])) :=
  C6_amended_merge 9 18 30 ⟨3600, 3600⟩ ⟨200000, 3600⟩ 3600
    [] [((⟨43200, 3600⟩ : DT), (⟨79200, 3600⟩ : DT))] []
    ((⟨36000, 3600⟩ : DT), (⟨68400, 3600⟩ : DT))
    ((⟨50400, 3600⟩ : DT), (⟨72000, 3600⟩ : DT))
    rfl rfl (by decide) (by decide) (by decide)

end CalendarMCP
